import Mathlib

/-!
All-pairs shortest paths: a shallow embedding of
`Arquitectura II/lab/gpu_practice.cpp`.

* `vector<int>` is a `List Int`; `grafo[c]` is `cell grafo c`.
* `int` is a 32-bit two's-complement integer: the sums the program computes
  go through `add32`, which wraps modulo `2^32`.
* The `constexpr` values `nodos`, `block_length`, `block_count` are numeric
  parameters of the functions (so that the 4-node scenario can be stated);
  the definitions `nodos`, `block_length`, ... hold the values of the source.
* A SYCL `buffer` built over `grafo.data()` with range `R` is its own memory
  object holding the first `R[0] * R[1]` integers of the host vector. `A` and
  `B` are only read; `C`, reached through a `write` accessor, is copied back
  to the host memory when it goes out of scope at the end of the round.
* The work-items of one `parallel_for` run phase by phase: all of them do
  step `k` of the kernel loop before the barrier lets any of them start step
  `k + 1`. Within a phase they are taken in row-major order; a work-item reads
  and writes no cell of `C` but its own.
* `InicializarGrafo` draws random numbers; its result is a parameter, described
  by `DistanceMatrix`.
* `afterPivot`, `stateAfter` and `workItem` are the loops of the source cut
  short or run for one work-item, to speak about intermediate states;
  `FloydWarshallUnbounded` is the sequential engine over unbounded integers,
  kept for comparison only.
-/

set_option maxRecDepth 10000

namespace Oneapi

/-! ## Constants of the source -/

/-- Value of `constexpr int nodos`. -/
def nodos : Nat := 16

/-- Value of `constexpr int block_length`. -/
def block_length : Nat := 4

/-- Value of `constexpr int block_count = nodos`. -/
def block_count : Nat := nodos

/-- Value of `constexpr int max_distance`. -/
def max_distance : Int := 100

/-- Value of `constexpr int infinite = nodos * max_distance`. -/
def infinite : Int := (nodos : Int) * max_distance

/-- Value of `constexpr int repetitions`. -/
def repetitions : Nat := 1

/-! ## Machine integers and vectors -/

/-- Reduction of an integer to the 32-bit two's-complement range. -/
def wrap32 (x : Int) : Int := (x + 2147483648) % 4294967296 - 2147483648

/-- Addition of two `int` values. -/
def add32 (a b : Int) : Int := wrap32 (a + b)

/-- Read of `grafo[c]`. -/
def cell (grafo : List Int) (c : Nat) : Int := grafo.getD c 0

/-- Entry `(i, j)` of an `n`×`n` row-major matrix: `grafo[i * n + j]`. -/
def entry (n : Nat) (grafo : List Int) (i j : Nat) : Int := cell grafo (i * n + j)

/-! ## Sequential engine -/

/-- Body of the innermost loop of `FloydWarshall` (lines 41-43). -/
def relax (n : Nat) (grafo : List Int) (k i j : Nat) : List Int :=
  if cell grafo (i * n + j) > add32 (cell grafo (i * n + k)) (cell grafo (k * n + j)) then
    grafo.set (i * n + j) (add32 (cell grafo (i * n + k)) (cell grafo (k * n + j)))
  else grafo

/-- Loop `for (int j = 0; j < nodos; j++)` of `FloydWarshall`. -/
def loopJ (n k i : Nat) (grafo : List Int) : List Int :=
  (List.range n).foldl (fun g j => relax n g k i j) grafo

/-- Loop `for (int i = 0; i < nodos; i++)` of `FloydWarshall`. -/
def loopI (n k : Nat) (grafo : List Int) : List Int :=
  (List.range n).foldl (fun g i => loopJ n k i g) grafo

/-- Function `FloydWarshall(grafo)` with `nodos = n`; returns the final vector. -/
def FloydWarshall (n : Nat) (grafo : List Int) : List Int :=
  (List.range n).foldl (fun g k => loopI n k g) grafo

/-- State of `FloydWarshall` once the outer-loop iterations for the pivots
`0 .. k` have completed. -/
def afterPivot (n : Nat) (grafo : List Int) (k : Nat) : List Int :=
  (List.range (k + 1)).foldl (fun g k' => loopI n k' g) grafo

/-- The triples `(k, i, j)` in the order in which the three loops of
`FloydWarshall` reach them. -/
def steps (n : Nat) : List (Nat × Nat × Nat) :=
  (List.range n).flatMap (fun k =>
    (List.range n).flatMap (fun i => (List.range n).map (fun j => (k, i, j))))

/-- Innermost loop body of `FloydWarshall` at the triple `s`. -/
def relaxStep (n : Nat) (grafo : List Int) (s : Nat × Nat × Nat) : List Int :=
  relax n grafo s.1 s.2.1 s.2.2

/-- State of `FloydWarshall` after its first `t` executions of the innermost
loop body. -/
def stateAfter (n : Nat) (grafo : List Int) (t : Nat) : List Int :=
  ((steps n).take t).foldl (relaxStep n) grafo

/-- Innermost loop body of `FloydWarshall` computed with unbounded integers:
the sum is the mathematical one. -/
def relaxUnbounded (n : Nat) (grafo : List Int) (k i j : Nat) : List Int :=
  if cell grafo (i * n + j) > cell grafo (i * n + k) + cell grafo (k * n + j) then
    grafo.set (i * n + j) (cell grafo (i * n + k) + cell grafo (k * n + j))
  else grafo

/-- Function `FloydWarshall` computed with unbounded integers. -/
def FloydWarshallUnbounded (n : Nat) (grafo : List Int) : List Int :=
  (List.range n).foldl (fun g k =>
    (List.range n).foldl (fun g i =>
      (List.range n).foldl (fun g j => relaxUnbounded n g k i j) g) g) grafo

/-! ## Tiled engine -/

/-- Contents of `buffer<int, 2>(grafo.data(), range<2>(bl, bl))`: the first
`bl * bl` integers of the host vector. -/
def buffer (bl : Nat) (grafo : List Int) : List Int := grafo.take (bl * bl)

/-- Position in the buffer (and so in `grafo.data()`) of `accessor[i][j]` for
the range `(bl, bl)`: row-major. -/
def linear (bl i j : Nat) : Nat := i * bl + j

/-- Read of `accessor[i][j]`. -/
def acc (bl : Nat) (buf : List Int) (i j : Nat) : Int := cell buf (linear bl i j)

/-- Body of the kernel loop for the work-item with global id `(i, j)` at
step `k` (lines 74-77). -/
def kernelStep (bl : Nat) (A B C : List Int) (k i j : Nat) : List Int :=
  if acc bl C i j > add32 (acc bl A i k) (acc bl B k j) then
    C.set (linear bl i j) (add32 (acc bl A i k) (acc bl B k j))
  else C

/-- One barrier phase: every work-item `(i, j)` of the `bl`×`bl` range does its
step `k`. -/
def kernelPhase (bl : Nat) (A B C : List Int) (k : Nat) : List Int :=
  (List.range bl).foldl
    (fun c i => (List.range bl).foldl (fun c j => kernelStep bl A B c k i j) c) C

/-- Kernel `KernelBlockedFloydWarshall` over `nd_range<2>(R, R)`: the phases
`k = 0 .. bl - 1`, separated by the barrier; returns the final buffer `C`. -/
def KernelBlockedFloydWarshall (bl : Nat) (A B C : List Int) : List Int :=
  (List.range bl).foldl (fun c k => kernelPhase bl A B c k) C

/-- Loop `for (int k = 0; k < block_length; k++)` of the kernel as run by the
single work-item with global id `(i, j)`, on the buffer `C`. -/
def workItem (bl : Nat) (A B C : List Int) (i j : Nat) : List Int :=
  (List.range bl).foldl (fun c k => kernelStep bl A B c k i j) C

/-- Write-back of a buffer to the host vector it was built over. -/
def writeBack (buf grafo : List Int) : List Int := buf ++ grafo.drop buf.length

/-- One iteration of the loop over `round` in `BlockedFloydWarshall`. -/
def blockedRound (bl : Nat) (grafo : List Int) : List Int :=
  let A := buffer bl grafo
  let B := buffer bl grafo
  let C := buffer bl grafo
  writeBack (KernelBlockedFloydWarshall bl A B C) grafo

/-- Function `BlockedFloydWarshall(q, grafo)` with `block_length = bl` and
`block_count = bc`; returns the final vector. -/
def BlockedFloydWarshall (bl bc : Nat) (grafo : List Int) : List Int :=
  (List.range bc).foldl (fun g _ => blockedRound bl g) grafo

/-! ## Measured repetition of `main` -/

/-- Call `copy(src.begin(), src.end(), dst.begin())`; returns the new `dst`. -/
def copy (src dst : List Int) : List Int := src ++ dst.drop src.length

/-- Call `equal(a.begin(), a.end(), b.begin())`. -/
def equal (a b : List Int) : Bool := decide (a = b.take a.length)

/-- One iteration of the measuring loop of `main` (lines 108-130): returns the
value of `equal(...)` and the final `sequential`. -/
def repetition (n bl bc : Nat) (grafo sequential : List Int) : Bool × List Int :=
  let sequential := copy grafo sequential
  let sequential := FloydWarshall n sequential
  let sequential := copy grafo sequential
  let sequential := BlockedFloydWarshall bl bc sequential
  (equal grafo sequential, sequential)

/-- Body of `main` from the warm-up run to the end of the first repetition,
for the graph `g0` left by `InicializarGrafo`: the result of the check. -/
def mainCheck (n bl bc : Nat) (g0 : List Int) : Bool :=
  let grafo := BlockedFloydWarshall bl bc g0
  let sequential := List.replicate (n * n) (0 : Int)
  (repetition n bl bc grafo sequential).1

/-! ## Test matrices -/

/-- Edge matrix of the 4-node scenario, with `infinite = 400`. -/
def scenario4 : List Int :=
  [0, 3, 400, 400,
   400, 0, 1, 400,
   400, 400, 0, 2,
   1, 400, 400, 0]

/-- Row-major vector of the `n`×`n` matrix whose entry `(i, j)` is `f i j`. -/
def matrixOf (n : Nat) (f : Nat → Nat → Int) : List Int :=
  (List.range (n * n)).map (fun c => f (c / n) (c % n))

/-- Fully disconnected graph on `n` nodes with sentinel `inf`: zero diagonal,
every other entry `inf`. -/
def disconnected (n : Nat) (inf : Int) : List Int :=
  matrixOf n (fun i j => if i = j then 0 else inf)

/-- Fully connected graph on `n` nodes with every edge of weight `w`: zero
diagonal, every other entry `w`. -/
def fullyConnected (n : Nat) (w : Int) : List Int :=
  matrixOf n (fun i j => if i = j then 0 else w)

/-- Graph on `nodos` nodes whose only edges are `1 → 2` and `2 → 3`, both of
weight 1. -/
def chainGraph : List Int :=
  matrixOf nodos (fun i j =>
    if i = j then 0 else if (i = 1 ∧ j = 2) ∨ (i = 2 ∧ j = 3) then 1 else infinite)

/-- Matrix on `nodos` nodes with zero diagonal and non-negative entries, one
of them the largest `int`: entry `(0, 1)` is `2147483647`, entry `(1, 0)` is 1,
every other off-diagonal entry is `infinite`. -/
def overflowGraph : List Int :=
  matrixOf nodos (fun i j =>
    if i = j then 0 else if i = 0 ∧ j = 1 then 2147483647
    else if i = 1 ∧ j = 0 then 1 else infinite)

/-- Matrix on `nodos` nodes whose entry at flat index `c` is `c` itself. -/
def indexGraph : List Int :=
  matrixOf nodos (fun i j => ((i * nodos + j : Nat) : Int))

/-! ## Distance matrices and paths -/

/-- Matrix as the graph generator leaves it (`InicializarGrafo`): `n * n`
integers, zero diagonal, every other entry either the sentinel `n * maxd` or
an edge weight in `[1, maxd]`. -/
structure DistanceMatrix (n : Nat) (maxd : Int) (m : List Int) : Prop where
  len : m.length = n * n
  diag : ∀ i, i < n → entry n m i i = 0
  off : ∀ i j, i < n → j < n → i ≠ j →
    entry n m i j = (n : Int) * maxd ∨ (1 ≤ entry n m i j ∧ entry n m i j ≤ maxd)

/-- Total weight in `m` of the path that visits the nodes `vs` in order. -/
def pathWeight (n : Nat) (m : List Int) : List Nat → Int
  | [] => 0
  | [_] => 0
  | u :: v :: vs => entry n m u v + pathWeight n m (v :: vs)

/-- Every node of `vs` is joined to the next one by a real edge of `m`: the
two nodes differ and the entry is not the sentinel `inf`. -/
def RealChain (n : Nat) (inf : Int) (m : List Int) : List Nat → Prop
  | [] => True
  | [_] => True
  | u :: v :: vs => u ≠ v ∧ entry n m u v ≠ inf ∧ RealChain n inf m (v :: vs)

/-- The node sequence `vs` is a path from `i` to `j` over real edges of `m`;
the one-node sequence `[i]` is the path of length zero from `i` to `i`. -/
def RealPath (n : Nat) (inf : Int) (m : List Int) (i j : Nat) (vs : List Nat) : Prop :=
  vs.head? = some i ∧ vs.getLast? = some j ∧ (∀ v ∈ vs, v < n) ∧ RealChain n inf m vs

/-- Every step of the walk from `i` through `p` to `j` satisfies `E`. -/
def WalkAll (E : Nat → Nat → Prop) : Nat → List Nat → Nat → Prop
  | i, [], j => E i j
  | i, v :: p, j => E i v ∧ WalkAll E v p j

/-! ## Walks and the loop invariant of the sequential engine -/

/-- Total weight in the matrix `m` of the walk that goes from `i` through the
intermediate nodes `p`, in order, to `j`. -/
def walkWeight (n : Nat) (m : List Int) : Nat → List Nat → Nat → Int
  | i, [], j => entry n m i j
  | i, v :: p, j => entry n m i v + walkWeight n m v p j

/-- Bound on the intermediate nodes already accounted for at entry `(i, j)`
when the loops of `FloydWarshall` stand at pivot `k`, row `i0`, column `j0`. -/
def level (k i0 j0 i j : Nat) : Nat := if i < i0 ∨ (i = i0 ∧ j < j0) then k + 1 else k

/-- Loop invariant of `FloydWarshall` started on `m`, at pivot `k`, row `i0`,
column `j0`, for the current vector `g` and a bound `B` on the entries. -/
structure Inv (n : Nat) (B : Int) (m : List Int) (k i0 j0 : Nat) (g : List Int) : Prop where
  len : g.length = n * n
  bnd : ∀ i j, i < n → j < n → 0 ≤ entry n g i j ∧ entry n g i j ≤ B
  ach : ∀ i j, i < n → j < n →
    ∃ p, (∀ v ∈ p, v < n) ∧ entry n g i j = walkWeight n m i p j
  lb : ∀ i j, i < n → j < n → ∀ p, (∀ v ∈ p, v < level k i0 j0 i j) →
    entry n g i j ≤ walkWeight n m i p j

/-- Value of a cell that starts at `c` and is compared in turn with the sums
`s 0`, ..., `s (t - 1)`, taking each one that is smaller. -/
def relaxThrough (s : Nat → Int) (t : Nat) (c : Int) : Int :=
  (List.range t).foldl (fun x k => if x > s k then s k else x) c

/-- Every entry of `g` is the weight in `m` of some walk whose intermediate
nodes are all below `k`. -/
def Within (n : Nat) (m : List Int) (k : Nat) (g : List Int) : Prop :=
  ∀ i j, i < n → j < n → ∃ p, (∀ v ∈ p, v < k) ∧ entry n g i j = walkWeight n m i p j

/-- Invariant of the rounds of `BlockedFloydWarshall` started on `m`, after
`r` rounds, for the current vector `g` and a bound `B` on the entries: the tile
is read as the `bl`-node graph of the first `bl * bl` entries. -/
structure TileInv (bl : Nat) (B : Int) (m : List Int) (r : Nat) (g : List Int) : Prop where
  len : g.length = m.length
  bnd : ∀ c, 0 ≤ cell g c ∧ cell g c ≤ B
  ach : ∀ i j, i < bl → j < bl →
    ∃ p, (∀ v ∈ p, v < bl) ∧ entry bl g i j = walkWeight bl m i p j
  lb : ∀ i j, i < bl → j < bl → ∀ p, (∀ v ∈ p, v < bl) → p.length < 2 ^ r →
    entry bl g i j ≤ walkWeight bl m i p j

theorem wrap32_eq (x : Int) (h1 : -2147483648 ≤ x) (h2 : x < 2147483648) : wrap32 x = x := by
  unfold wrap32; omega

theorem add32_eq (a b B : Int) (hB : 2 * B < 2147483648) (ha : 0 ≤ a) (ha' : a ≤ B)
    (hb : 0 ≤ b) (hb' : b ≤ B) : add32 a b = a + b := by
  unfold add32; apply wrap32_eq <;> omega

theorem cell_set (g : List Int) (c c' : Nat) (v : Int) :
    cell (g.set c v) c' = if c = c' ∧ c < g.length then v else cell g c' := by
  unfold cell
  simp only [List.getD_eq_getElem?_getD, List.getElem?_set]
  by_cases h : c = c'
  · subst h
    by_cases h2 : c < g.length
    · simp [h2]
    · simp [h2, List.getElem?_eq_none (Nat.le_of_not_lt h2)]
  · simp [h]

theorem cell_of_lt (g : List Int) (c : Nat) (h : c < g.length) : cell g c = g[c] := by
  unfold cell; simp [List.getD_eq_getElem?_getD, h]

theorem cell_of_ge (g : List Int) (c : Nat) (h : g.length ≤ c) : cell g c = 0 := by
  unfold cell; simp [List.getD_eq_getElem?_getD, List.getElem?_eq_none h]

theorem ext_cell (g g' : List Int) (hl : g.length = g'.length)
    (h : ∀ c, c < g.length → cell g c = cell g' c) : g = g' := by
  apply List.ext_getElem hl
  intro c h1 h2
  have := h c h1
  rwa [cell_of_lt g c h1, cell_of_lt g' c h2] at this

theorem length_relax (n : Nat) (g : List Int) (k i j : Nat) :
    (relax n g k i j).length = g.length := by
  unfold relax; split <;> simp

theorem cell_relax_le (n : Nat) (g : List Int) (k i j c : Nat) :
    cell (relax n g k i j) c ≤ cell g c := by
  unfold relax
  split
  · rw [cell_set]
    split
    · next h1 h2 => rw [← h2.1]; omega
    · exact le_refl _
  · exact le_refl _

theorem foldl_range_inv {α : Type} (P : Nat → α → Prop) (f : α → Nat → α) (n : Nat) (a : α)
    (h0 : P 0 a) (hs : ∀ t x, t < n → P t x → P (t + 1) (f x t)) :
    P n ((List.range n).foldl f a) := by
  induction n with
  | zero => simpa using h0
  | succ n ih =>
    rw [List.range_succ, List.foldl_append]
    simp only [List.foldl_cons, List.foldl_nil]
    exact hs n _ (Nat.lt_succ_self n) (ih (fun t x ht => hs t x (Nat.lt_succ_of_lt ht)))

theorem idx_lt (n i j : Nat) (hi : i < n) (hj : j < n) : i * n + j < n * n := by
  have h1 : (i + 1) * n ≤ n * n := Nat.mul_le_mul_right n hi
  have h2 : (i + 1) * n = i * n + n := by ring
  omega

theorem idx_inj (n a b i j : Nat) (hb : b < n) (hj : j < n) (h : a * n + b = i * n + j) :
    a = i ∧ b = j := by
  rcases Nat.lt_trichotomy a i with h1 | h1 | h1
  · exfalso
    have h2 : (a + 1) * n ≤ i * n := Nat.mul_le_mul_right n h1
    have h3 : (a + 1) * n = a * n + n := by ring
    omega
  · subst h1; exact ⟨rfl, by omega⟩
  · exfalso
    have h2 : (i + 1) * n ≤ a * n := Nat.mul_le_mul_right n h1
    have h3 : (i + 1) * n = i * n + n := by ring
    omega

theorem entry_relax (n : Nat) (g : List Int) (k i j a b : Nat) (hlen : g.length = n * n)
    (hi : i < n) (hj : j < n) (hb : b < n) :
    entry n (relax n g k i j) a b =
      if a = i ∧ b = j then
        (if entry n g i j > add32 (entry n g i k) (entry n g k j)
          then add32 (entry n g i k) (entry n g k j) else entry n g i j)
      else entry n g a b := by
  have hidx := idx_lt n i j hi hj
  unfold entry relax
  by_cases hab : a = i ∧ b = j
  · obtain ⟨rfl, rfl⟩ := hab
    simp only [and_self, if_true]
    split
    · rw [cell_set]; simp [hlen, hidx]
    · rfl
  · simp only [hab, if_false]
    split
    · rw [cell_set]
      have : ¬ (i * n + j = a * n + b ∧ i * n + j < g.length) := by
        rintro ⟨h, _⟩
        have := idx_inj n a b i j hb hj h.symm
        exact hab this
      simp [this]
    · rfl

theorem walkWeight_nonneg (n : Nat) (m : List Int)
    (hm : ∀ a b, a < n → b < n → 0 ≤ entry n m a b) :
    ∀ (p : List Nat) (a b : Nat), a < n → b < n → (∀ v ∈ p, v < n) →
      0 ≤ walkWeight n m a p b := by
  intro p
  induction p with
  | nil => intro a b ha hb _; exact hm a b ha hb
  | cons v p ih =>
    intro a b ha hb hp
    have hv : v < n := hp v (List.mem_cons_self v p)
    have h1 := hm a v ha hv
    have h2 := ih v b hv hb (fun x hx => hp x (List.mem_cons_of_mem v hx))
    simp only [walkWeight]; omega

theorem walkWeight_append (n : Nat) (m : List Int) :
    ∀ (p q : List Nat) (a k b : Nat),
      walkWeight n m a (p ++ k :: q) b = walkWeight n m a p k + walkWeight n m k q b := by
  intro p
  induction p with
  | nil => intro q a k b; simp [walkWeight]
  | cons v p ih => intro q a k b; simp [walkWeight, ih, add_assoc]

theorem walk_split (n : Nat) (m : List Int)
    (hm : ∀ a b, a < n → b < n → 0 ≤ entry n m a b) (k : Nat) (hk : k < n) :
    ∀ (p : List Nat) (a b : Nat), a < n → b < n → (∀ v ∈ p, v < k + 1) →
      (∀ v ∈ p, v < k) ∨
      ∃ p1 p2, (∀ v ∈ p1, v < k) ∧ (∀ v ∈ p2, v < k) ∧
        walkWeight n m a p1 k + walkWeight n m k p2 b ≤ walkWeight n m a p b := by
  intro p
  induction p with
  | nil => intro a b _ _ _; left; simp
  | cons v p ih =>
    intro a b ha hb hp
    have hv : v < k + 1 := hp v (List.mem_cons_self v p)
    have hp' : ∀ x ∈ p, x < k + 1 := fun x hx => hp x (List.mem_cons_of_mem v hx)
    have hvn : v < n := by omega
    rcases ih v b hvn hb hp' with h | ⟨q1, q2, h1, h2, h3⟩
    · by_cases hvk : v < k
      · left
        intro x hx
        rcases List.mem_cons.1 hx with rfl | hx
        · exact hvk
        · exact h x hx
      · right
        have e : v = k := by omega
        subst e
        exact ⟨[], p, by simp, h, by simp [walkWeight]⟩
    · by_cases hvk : v < k
      · right
        refine ⟨v :: q1, q2, ?_, h2, ?_⟩
        · intro x hx
          rcases List.mem_cons.1 hx with rfl | hx
          · exact hvk
          · exact h1 x hx
        · simp only [walkWeight]; omega
      · right
        have e : v = k := by omega
        subst e
        refine ⟨[], q2, by simp, h2, ?_⟩
        have hq : 0 ≤ walkWeight n m v q1 v :=
          walkWeight_nonneg n m hm q1 v v hvn hvn (fun x hx => by have := h1 x hx; omega)
        simp only [walkWeight]; omega

theorem le_level (k i0 j0 i j : Nat) : k ≤ level k i0 j0 i j := by
  unfold level; split <;> omega

theorem Inv.init (n : Nat) (B : Int) (m : List Int) (hlen : m.length = n * n)
    (hbnd : ∀ i j, i < n → j < n → 0 ≤ entry n m i j ∧ entry n m i j ≤ B) :
    Inv n B m 0 0 0 m where
  len := hlen
  bnd := hbnd
  ach := fun i j _ _ => ⟨[], by simp, rfl⟩
  lb := by
    intro i j _ _ p hp
    have hl : level 0 0 0 i j = 0 := by unfold level; simp
    cases p with
    | nil => exact le_refl _
    | cons v p => have := hp v (List.mem_cons_self v p); omega

theorem Inv.relax (n : Nat) (B : Int) (m : List Int) (hB : 2 * B < 2147483648)
    (hm : ∀ a b, a < n → b < n → 0 ≤ entry n m a b)
    (k i j : Nat) (hk : k < n) (hi : i < n) (hj : j < n) (g : List Int)
    (h : Inv n B m k i j g) : Inv n B m k i (j + 1) (relax n g k i j) := by
  have hik := h.bnd i k hi hk
  have hkj := h.bnd k j hk hj
  have hij := h.bnd i j hi hj
  have hadd : add32 (entry n g i k) (entry n g k j) = entry n g i k + entry n g k j :=
    add32_eq _ _ B hB hik.1 hik.2 hkj.1 hkj.2
  have hent : ∀ a b, b < n → entry n (Oneapi.relax n g k i j) a b =
      if a = i ∧ b = j then
        (if entry n g i j > entry n g i k + entry n g k j
          then entry n g i k + entry n g k j else entry n g i j)
      else entry n g a b := by
    intro a b hb
    rw [entry_relax n g k i j a b h.len hi hj hb, hadd]
  refine ⟨by rw [length_relax]; exact h.len, ?_, ?_, ?_⟩
  · intro a b ha hb
    rw [hent a b hb]
    have := h.bnd a b ha hb
    split
    · split <;> omega
    · exact this
  · intro a b ha hb
    rw [hent a b hb]
    split
    · next hab =>
      obtain ⟨rfl, rfl⟩ := hab
      split
      · obtain ⟨p1, hp1, e1⟩ := h.ach a k hi hk
        obtain ⟨p2, hp2, e2⟩ := h.ach k b hk hj
        refine ⟨p1 ++ k :: p2, ?_, ?_⟩
        · intro v hv
          rcases List.mem_append.1 hv with hv | hv
          · exact hp1 v hv
          · rcases List.mem_cons.1 hv with rfl | hv
            · exact hk
            · exact hp2 v hv
        · rw [walkWeight_append, e1, e2]
      · exact h.ach a b hi hj
    · exact h.ach a b ha hb
  · intro a b ha hb p hp
    rw [hent a b hb]
    split
    · next hab =>
      obtain ⟨rfl, rfl⟩ := hab
      have hl : level k a (b + 1) a b = k + 1 := by unfold level; simp
      rw [hl] at hp
      have hnew : (if entry n g a b > entry n g a k + entry n g k b
          then entry n g a k + entry n g k b else entry n g a b) ≤ entry n g a b ∧
          (if entry n g a b > entry n g a k + entry n g k b
          then entry n g a k + entry n g k b else entry n g a b) ≤
            entry n g a k + entry n g k b := by
        split <;> constructor <;> omega
      rcases walk_split n m hm k hk p a b hi hj hp with h1 | ⟨p1, p2, h1, h2, h3⟩
      · have := h.lb a b hi hj p (fun v hv => lt_of_lt_of_le (h1 v hv) (le_level _ _ _ _ _))
        omega
      · have e1 := h.lb a k hi hk p1 (fun v hv => lt_of_lt_of_le (h1 v hv) (le_level _ _ _ _ _))
        have e2 := h.lb k b hk hj p2 (fun v hv => lt_of_lt_of_le (h2 v hv) (le_level _ _ _ _ _))
        omega
    · next hab =>
      apply h.lb a b ha hb p
      intro v hv
      have := hp v hv
      have hl : level k i (j + 1) a b = level k i j a b := by
        unfold level
        by_cases c1 : a < i ∨ (a = i ∧ b < j + 1)
        · have c2 : a < i ∨ (a = i ∧ b < j) := by
            rcases c1 with c | ⟨c, d⟩
            · exact Or.inl c
            · right; refine ⟨c, ?_⟩
              have : b ≠ j := fun e => hab ⟨c, e⟩
              omega
          simp [c1, c2]
        · have c2 : ¬ (a < i ∨ (a = i ∧ b < j)) := by
            intro c; apply c1
            rcases c with c | ⟨c, d⟩
            · exact Or.inl c
            · exact Or.inr ⟨c, by omega⟩
          simp [c1, c2]
      rwa [hl] at this

theorem Inv.relevel (n : Nat) (B : Int) (m : List Int) (k i0 j0 k' i1 j1 : Nat) (g : List Int)
    (h : Inv n B m k i0 j0 g)
    (hl : ∀ i j, i < n → j < n → level k' i1 j1 i j = level k i0 j0 i j) :
    Inv n B m k' i1 j1 g :=
  ⟨h.len, h.bnd, h.ach, fun i j hi hj p hp => h.lb i j hi hj p (by rw [← hl i j hi hj]; exact hp)⟩

theorem Inv.loopJ (n : Nat) (B : Int) (m : List Int) (hB : 2 * B < 2147483648)
    (hm : ∀ a b, a < n → b < n → 0 ≤ entry n m a b)
    (k i : Nat) (hk : k < n) (hi : i < n) (g : List Int)
    (h : Inv n B m k i 0 g) : Inv n B m k (i + 1) 0 (loopJ n k i g) := by
  have := foldl_range_inv (fun j x => Inv n B m k i j x) (fun x j => Oneapi.relax n x k i j) n g h
    (fun t x ht hx => Inv.relax n B m hB hm k i t hk hi ht x hx)
  apply Inv.relevel n B m k i n k (i + 1) 0 _ this
  intro a b _ hb
  unfold level
  by_cases c : a < i + 1
  · have c2 : a < i ∨ (a = i ∧ b < n) := by omega
    simp [c, c2]
  · have c2 : ¬ (a < i ∨ (a = i ∧ b < n)) := by omega
    simp [c, c2]

theorem Inv.loopI (n : Nat) (B : Int) (m : List Int) (hB : 2 * B < 2147483648)
    (hm : ∀ a b, a < n → b < n → 0 ≤ entry n m a b)
    (k : Nat) (hk : k < n) (g : List Int)
    (h : Inv n B m k 0 0 g) : Inv n B m (k + 1) 0 0 (loopI n k g) := by
  have := foldl_range_inv (fun i x => Inv n B m k i 0 x) (fun x i => Oneapi.loopJ n k i x) n g h
    (fun t x ht hx => Inv.loopJ n B m hB hm k t hk ht x hx)
  apply Inv.relevel n B m k n 0 (k + 1) 0 0 _ this
  intro a b ha _
  unfold level
  simp [ha]

theorem Inv.final (n : Nat) (B : Int) (m : List Int) (hB : 2 * B < 2147483648)
    (hlen : m.length = n * n)
    (hbnd : ∀ i j, i < n → j < n → 0 ≤ entry n m i j ∧ entry n m i j ≤ B) :
    Inv n B m n 0 0 (FloydWarshall n m) :=
  foldl_range_inv (fun k x => Inv n B m k 0 0 x) (fun x k => Oneapi.loopI n k x) n m
    (Inv.init n B m hlen hbnd)
    (fun t x ht hx => Inv.loopI n B m hB (fun a b ha hb => (hbnd a b ha hb).1) t ht x hx)

/-! ### Entries never grow -/

theorem cell_foldl_le {β : Type} (f : List Int → β → List Int)
    (hf : ∀ g x c, cell (f g x) c ≤ cell g c) :
    ∀ (l : List β) (g : List Int) (c : Nat), cell (l.foldl f g) c ≤ cell g c := by
  intro l
  induction l with
  | nil => intro g c; exact le_refl _
  | cons x l ih => intro g c; exact le_trans (ih (f g x) c) (hf g x c)

theorem cell_loopJ_le (n k i : Nat) (g : List Int) (c : Nat) :
    cell (loopJ n k i g) c ≤ cell g c :=
  cell_foldl_le (fun x j => relax n x k i j) (fun x j c => cell_relax_le n x k i j c) _ g c

theorem cell_loopI_le (n k : Nat) (g : List Int) (c : Nat) :
    cell (loopI n k g) c ≤ cell g c :=
  cell_foldl_le (fun x i => loopJ n k i x) (fun x i c => cell_loopJ_le n k i x c) _ g c

theorem cell_FloydWarshall_le (n : Nat) (g : List Int) (c : Nat) :
    cell (FloydWarshall n g) c ≤ cell g c :=
  cell_foldl_le (fun x k => loopI n k x) (fun x k c => cell_loopI_le n k x c) _ g c

theorem length_kernelStep (bl : Nat) (A B C : List Int) (k i j : Nat) :
    (kernelStep bl A B C k i j).length = C.length := by
  unfold kernelStep; split <;> simp

theorem cell_kernelStep_le (bl : Nat) (A B C : List Int) (k i j c : Nat) :
    cell (kernelStep bl A B C k i j) c ≤ cell C c := by
  unfold kernelStep acc
  split
  · rw [cell_set]
    split
    · next h1 h2 => rw [← h2.1]; omega
    · exact le_refl _
  · exact le_refl _

theorem cell_kernelPhase_le (bl : Nat) (A B C : List Int) (k c : Nat) :
    cell (kernelPhase bl A B C k) c ≤ cell C c :=
  cell_foldl_le (fun x i => (List.range bl).foldl (fun y j => kernelStep bl A B y k i j) x)
    (fun x i c => cell_foldl_le (fun y j => kernelStep bl A B y k i j)
      (fun y j c => cell_kernelStep_le bl A B y k i j c) _ x c) _ C c

theorem cell_Kernel_le (bl : Nat) (A B C : List Int) (c : Nat) :
    cell (KernelBlockedFloydWarshall bl A B C) c ≤ cell C c :=
  cell_foldl_le (fun x k => kernelPhase bl A B x k)
    (fun x k c => cell_kernelPhase_le bl A B x k c) _ C c

theorem length_foldl_eq {β : Type} (f : List Int → β → List Int)
    (hf : ∀ g x, (f g x).length = g.length) :
    ∀ (l : List β) (g : List Int), (l.foldl f g).length = g.length := by
  intro l
  induction l with
  | nil => intro g; rfl
  | cons x l ih => intro g; exact (ih (f g x)).trans (hf g x)

theorem length_kernelPhase (bl : Nat) (A B C : List Int) (k : Nat) :
    (kernelPhase bl A B C k).length = C.length :=
  length_foldl_eq (fun x i => (List.range bl).foldl (fun y j => kernelStep bl A B y k i j) x)
    (fun x i => length_foldl_eq (fun y j => kernelStep bl A B y k i j)
      (fun y j => length_kernelStep bl A B y k i j) _ x) _ C

theorem length_Kernel (bl : Nat) (A B C : List Int) :
    (KernelBlockedFloydWarshall bl A B C).length = C.length :=
  length_foldl_eq (fun x k => kernelPhase bl A B x k)
    (fun x k => length_kernelPhase bl A B x k) _ C

theorem length_loopJ (n k i : Nat) (g : List Int) : (loopJ n k i g).length = g.length :=
  length_foldl_eq (fun x j => relax n x k i j) (fun x j => length_relax n x k i j) _ g

theorem length_loopI (n k : Nat) (g : List Int) : (loopI n k g).length = g.length :=
  length_foldl_eq (fun x i => loopJ n k i x) (fun x i => length_loopJ n k i x) _ g

theorem length_FloydWarshall (n : Nat) (g : List Int) :
    (FloydWarshall n g).length = g.length :=
  length_foldl_eq (fun x k => loopI n k x) (fun x k => length_loopI n k x) _ g

theorem cell_take (g : List Int) (t c : Nat) (h : c < t) : cell (g.take t) c = cell g c := by
  unfold cell
  simp [List.getD_eq_getElem?_getD, List.getElem?_take, h]

theorem length_buffer_le (bl : Nat) (g : List Int) : (buffer bl g).length ≤ bl * bl := by
  unfold buffer; simp

theorem cell_buffer (bl : Nat) (g : List Int) (c : Nat) (h : c < (buffer bl g).length) :
    cell (buffer bl g) c = cell g c := by
  have := length_buffer_le bl g
  unfold buffer at *
  exact cell_take g _ c (by omega)

theorem cell_writeBack (buf g : List Int) (c : Nat) :
    cell (writeBack buf g) c = if c < buf.length then cell buf c else cell g c := by
  unfold writeBack cell
  simp only [List.getD_eq_getElem?_getD]
  split
  · next h => rw [List.getElem?_append_left h]
  · next h =>
    rw [List.getElem?_append_right (Nat.le_of_not_lt h), List.getElem?_drop]
    congr 2
    omega

theorem length_blockedRound (bl : Nat) (g : List Int) :
    (blockedRound bl g).length = g.length := by
  unfold blockedRound writeBack
  simp only [List.length_append, List.length_drop, length_Kernel]
  unfold buffer
  simp only [List.length_take]
  omega

theorem cell_blockedRound_le (bl : Nat) (g : List Int) (c : Nat) :
    cell (blockedRound bl g) c ≤ cell g c := by
  unfold blockedRound
  simp only []
  rw [cell_writeBack]
  split
  · next h =>
    rw [length_Kernel] at h
    exact le_trans (cell_Kernel_le bl _ _ _ c) (le_of_eq (cell_buffer bl g c h))
  · exact le_refl _

theorem cell_blockedRound_frame (bl : Nat) (g : List Int) (c : Nat) (h : bl * bl ≤ c) :
    cell (blockedRound bl g) c = cell g c := by
  unfold blockedRound
  simp only []
  rw [cell_writeBack, length_Kernel]
  have := length_buffer_le bl g
  rw [if_neg (by omega)]

theorem cell_Blocked_le (bl bc : Nat) (g : List Int) (c : Nat) :
    cell (BlockedFloydWarshall bl bc g) c ≤ cell g c :=
  cell_foldl_le (fun x (_ : Nat) => blockedRound bl x) (fun x _ c => cell_blockedRound_le bl x c)
    _ g c

theorem length_Blocked (bl bc : Nat) (g : List Int) :
    (BlockedFloydWarshall bl bc g).length = g.length :=
  length_foldl_eq (fun x (_ : Nat) => blockedRound bl x) (fun x _ => length_blockedRound bl x) _ g

theorem cell_Blocked_frame (bl bc : Nat) (g : List Int) (c : Nat) (h : bl * bl ≤ c) :
    cell (BlockedFloydWarshall bl bc g) c = cell g c := by
  unfold BlockedFloydWarshall
  exact foldl_range_inv (fun _ x => cell x c = cell g c) (fun x _ => blockedRound bl x) bc g rfl
    (fun t x _ hx => (cell_blockedRound_frame bl x c h).trans hx)

/-! ### A relaxed matrix is a fixed point -/

theorem relax_noop (n : Nat) (g : List Int) (k i j : Nat)
    (h : ¬ cell g (i * n + j) > add32 (cell g (i * n + k)) (cell g (k * n + j))) :
    relax n g k i j = g := by
  unfold relax; rw [if_neg h]

theorem foldl_range_fix {α : Type} (f : α → Nat → α) (n : Nat) (a : α)
    (h : ∀ t, t < n → f a t = a) : (List.range n).foldl f a = a :=
  foldl_range_inv (fun _ x => x = a) f n a rfl (fun t x ht hx => by rw [hx]; exact h t ht)

theorem FloydWarshall_noop (n : Nat) (B : Int) (d : List Int) (hB : 2 * B < 2147483648)
    (hbnd : ∀ i j, i < n → j < n → 0 ≤ entry n d i j ∧ entry n d i j ≤ B)
    (htri : ∀ i j k, i < n → j < n → k < n → entry n d i j ≤ entry n d i k + entry n d k j) :
    FloydWarshall n d = d := by
  unfold FloydWarshall
  apply foldl_range_fix
  intro k hk
  unfold loopI
  apply foldl_range_fix
  intro i hi
  unfold loopJ
  apply foldl_range_fix
  intro j hj
  apply relax_noop
  have h1 := hbnd i k hi hk
  have h2 := hbnd k j hk hj
  have h3 := htri i j k hi hj hk
  unfold entry at h1 h2 h3
  rw [add32_eq _ _ B hB h1.1 h1.2 h2.1 h2.2]
  omega

theorem triangle_of_Inv (n : Nat) (B : Int) (m d : List Int)
    (h : Inv n B m n 0 0 d) (i j k : Nat) (hi : i < n) (hj : j < n) (hk : k < n) :
    entry n d i j ≤ entry n d i k + entry n d k j := by
  obtain ⟨p1, hp1, e1⟩ := h.ach i k hi hk
  obtain ⟨p2, hp2, e2⟩ := h.ach k j hk hj
  have hl : ∀ a b, level n 0 0 a b = n := by intro a b; unfold level; simp
  have := h.lb i j hi hj (p1 ++ k :: p2) (by
    intro v hv
    rw [hl]
    rcases List.mem_append.1 hv with hv | hv
    · exact hp1 v hv
    · rcases List.mem_cons.1 hv with rfl | hv
      · exact hk
      · exact hp2 v hv)
  rw [walkWeight_append, ← e1, ← e2] at this
  exact this

/-! ### Matrices given by a function -/

theorem length_matrixOf (n : Nat) (f : Nat → Nat → Int) : (matrixOf n f).length = n * n := by
  unfold matrixOf; simp

theorem cell_matrixOf (n : Nat) (f : Nat → Nat → Int) (c : Nat) (h : c < n * n) :
    cell (matrixOf n f) c = f (c / n) (c % n) := by
  unfold cell matrixOf
  simp [List.getD_eq_getElem?_getD, List.getElem?_map, List.getElem?_range h]

theorem entry_matrixOf (n : Nat) (f : Nat → Nat → Int) (i j : Nat) (hi : i < n) (hj : j < n) :
    entry n (matrixOf n f) i j = f i j := by
  unfold entry
  rw [cell_matrixOf n f _ (idx_lt n i j hi hj)]
  have hn : 0 < n := by omega
  have h1 : (i * n + j) / n = i := by
    rw [Nat.add_comm, Nat.add_mul_div_right _ _ hn, Nat.div_eq_of_lt hj, Nat.zero_add]
  have h2 : (i * n + j) % n = j := by
    rw [Nat.add_comm, Nat.add_mul_mod_self_right, Nat.mod_eq_of_lt hj]
  rw [h1, h2]

theorem infinite_eq : infinite = 1600 := by decide

theorem cell_bnd_of_entries (n : Nat) (B : Int) (m : List Int) (hlen : m.length = n * n)
    (hB : 0 ≤ B) (hbnd : ∀ i j, i < n → j < n → 0 ≤ entry n m i j ∧ entry n m i j ≤ B)
    (c : Nat) : 0 ≤ cell m c ∧ cell m c ≤ B := by
  by_cases hc : c < n * n
  · have hn : 0 < n := by
      rcases Nat.eq_zero_or_pos n with h | h
      · subst h; simp at hc
      · exact h
    have h1 : c / n < n := Nat.div_lt_of_lt_mul hc
    have h2 : c % n < n := Nat.mod_lt _ hn
    have h3 := hbnd (c / n) (c % n) h1 h2
    unfold entry at h3
    rwa [Nat.div_add_mod' c n] at h3
  · rw [cell_of_ge m c (by omega)]
    exact ⟨le_refl _, hB⟩

/-! ### Rounds of the tiled engine -/

theorem kernelStep_noop (bl : Nat) (A B C : List Int) (k i j : Nat)
    (h : ¬ acc bl C i j > add32 (acc bl A i k) (acc bl B k j)) :
    kernelStep bl A B C k i j = C := by
  unfold kernelStep; rw [if_neg h]

theorem Kernel_noop (bl : Nat) (A B C : List Int)
    (h : ∀ i j k, i < bl → j < bl → k < bl →
      ¬ acc bl C i j > add32 (acc bl A i k) (acc bl B k j)) :
    KernelBlockedFloydWarshall bl A B C = C := by
  unfold KernelBlockedFloydWarshall
  apply foldl_range_fix
  intro k hk
  unfold kernelPhase
  apply foldl_range_fix
  intro i hi
  apply foldl_range_fix
  intro j hj
  exact kernelStep_noop bl A B C k i j (h i j k hi hj hk)

theorem writeBack_buffer (bl : Nat) (g : List Int) : writeBack (buffer bl g) g = g := by
  unfold writeBack buffer
  rw [List.length_take]
  rcases Nat.le_total (bl * bl) g.length with h | h
  · rw [Nat.min_eq_left h]; exact List.take_append_drop _ _
  · rw [Nat.min_eq_right h, List.take_of_length_le h, List.drop_length, List.append_nil]

theorem blockedRound_noop (bl : Nat) (g : List Int)
    (h : ∀ i j k, i < bl → j < bl → k < bl →
      ¬ acc bl (buffer bl g) i j > add32 (acc bl (buffer bl g) i k) (acc bl (buffer bl g) k j)) :
    blockedRound bl g = g := by
  unfold blockedRound
  simp only []
  rw [Kernel_noop bl _ _ _ h, writeBack_buffer]

theorem Blocked_noop (bl bc : Nat) (g : List Int)
    (h : ∀ i j k, i < bl → j < bl → k < bl →
      ¬ acc bl (buffer bl g) i j > add32 (acc bl (buffer bl g) i k) (acc bl (buffer bl g) k j)) :
    BlockedFloydWarshall bl bc g = g := by
  unfold BlockedFloydWarshall
  apply foldl_range_fix
  intro _ _
  exact blockedRound_noop bl g h

theorem acc_buffer (bl : Nat) (g : List Int) (i j : Nat) (hi : i < bl) (hj : j < bl)
    (hlen : bl * bl ≤ g.length) : acc bl (buffer bl g) i j = cell g (i * bl + j) := by
  unfold acc linear
  apply cell_buffer
  have := idx_lt bl i j hi hj
  unfold buffer
  rw [List.length_take]
  omega

/-- A tile whose only zero is its first cell, every other cell being `inf`, is
left as it is by every round. -/
theorem Blocked_noop_of_tile (bl bc : Nat) (inf : Int) (g : List Int)
    (hinf : 0 ≤ inf) (hov : 2 * inf < 2147483648) (hlen : bl * bl ≤ g.length)
    (htile : ∀ c, c < bl * bl → cell g c = if c = 0 then 0 else inf) :
    BlockedFloydWarshall bl bc g = g := by
  apply Blocked_noop
  intro i j k hi hj hk
  rw [acc_buffer bl g i j hi hj hlen, acc_buffer bl g i k hi hk hlen,
    acc_buffer bl g k j hk hj hlen]
  have h1 := htile _ (idx_lt bl i j hi hj)
  have h2 := htile _ (idx_lt bl i k hi hk)
  have h3 := htile _ (idx_lt bl k j hk hj)
  have hb : ∀ c, c < bl * bl → 0 ≤ cell g c ∧ cell g c ≤ inf := by
    intro c hc; rw [htile c hc]; split <;> omega
  have b2 := hb _ (idx_lt bl i k hi hk)
  have b3 := hb _ (idx_lt bl k j hk hj)
  rw [add32_eq _ _ inf hov b2.1 b2.2 b3.1 b3.2]
  rw [h1, h2, h3]
  by_cases c1 : i * bl + j = 0
  · rw [if_pos c1]
    have := hb _ (idx_lt bl i k hi hk)
    have := hb _ (idx_lt bl k j hk hj)
    rw [← h2, ← h3]; omega
  · rw [if_neg c1]
    by_cases c2 : i * bl + k = 0
    · by_cases c3 : k * bl + j = 0
      · exfalso
        have hk0 : k = 0 := by omega
        subst hk0
        have : i * bl = 0 := by omega
        omega
      · rw [if_pos c2, if_neg c3]; omega
    · rw [if_neg c2]
      split <;> omega

theorem foldl_preserves {β : Type} (P : List Int → Prop) (f : List Int → β → List Int)
    (hf : ∀ g x, P g → P (f g x)) : ∀ (l : List β) (g : List Int), P g → P (l.foldl f g) := by
  intro l
  induction l with
  | nil => intro g hg; exact hg
  | cons x l ih => intro g hg; exact ih (f g x) (hf g x hg)

theorem kernelStep_bnd (bl : Nat) (Bd : Int) (A B C : List Int) (hB : 2 * Bd < 2147483648)
    (hA : ∀ c, 0 ≤ cell A c ∧ cell A c ≤ Bd) (hB' : ∀ c, 0 ≤ cell B c ∧ cell B c ≤ Bd)
    (k i j : Nat) (hC : ∀ c, 0 ≤ cell C c ∧ cell C c ≤ Bd) :
    ∀ c, 0 ≤ cell (kernelStep bl A B C k i j) c ∧ cell (kernelStep bl A B C k i j) c ≤ Bd := by
  intro c
  have h1 := hA (linear bl i k)
  have h2 := hB' (linear bl k j)
  have h3 := hC (linear bl i j)
  unfold kernelStep acc
  rw [add32_eq _ _ Bd hB h1.1 h1.2 h2.1 h2.2]
  split
  · rw [cell_set]
    split
    · omega
    · exact hC c
  · exact hC c

theorem Kernel_bnd (bl : Nat) (Bd : Int) (A B C : List Int) (hB : 2 * Bd < 2147483648)
    (hA : ∀ c, 0 ≤ cell A c ∧ cell A c ≤ Bd) (hB' : ∀ c, 0 ≤ cell B c ∧ cell B c ≤ Bd)
    (hC : ∀ c, 0 ≤ cell C c ∧ cell C c ≤ Bd) :
    ∀ c, 0 ≤ cell (KernelBlockedFloydWarshall bl A B C) c ∧
      cell (KernelBlockedFloydWarshall bl A B C) c ≤ Bd := by
  unfold KernelBlockedFloydWarshall
  apply foldl_preserves (fun x => ∀ c, 0 ≤ cell x c ∧ cell x c ≤ Bd) _ _ _ C hC
  intro x k hx
  unfold kernelPhase
  apply foldl_preserves (fun x => ∀ c, 0 ≤ cell x c ∧ cell x c ≤ Bd) _ _ _ x hx
  intro y i hy
  apply foldl_preserves (fun x => ∀ c, 0 ≤ cell x c ∧ cell x c ≤ Bd) _ _ _ y hy
  intro z j hz
  exact kernelStep_bnd bl Bd A B z hB hA hB' k i j hz

theorem buffer_bnd (bl : Nat) (Bd : Int) (g : List Int)
    (hg : ∀ c, 0 ≤ cell g c ∧ cell g c ≤ Bd) :
    ∀ c, 0 ≤ cell (buffer bl g) c ∧ cell (buffer bl g) c ≤ Bd := by
  intro c
  by_cases h : c < (buffer bl g).length
  · rw [cell_buffer bl g c h]; exact hg c
  · rw [cell_of_ge _ c (by omega)]
    have := hg c
    exact ⟨le_refl _, by omega⟩

theorem blockedRound_bnd (bl : Nat) (Bd : Int) (hB : 2 * Bd < 2147483648) (g : List Int)
    (hg : ∀ c, 0 ≤ cell g c ∧ cell g c ≤ Bd) :
    ∀ c, 0 ≤ cell (blockedRound bl g) c ∧ cell (blockedRound bl g) c ≤ Bd := by
  intro c
  unfold blockedRound
  simp only []
  rw [cell_writeBack]
  split
  · exact Kernel_bnd bl Bd _ _ _ hB (buffer_bnd bl Bd g hg) (buffer_bnd bl Bd g hg)
      (buffer_bnd bl Bd g hg) c
  · exact hg c

theorem Blocked_bnd (bl bc : Nat) (Bd : Int) (hB : 2 * Bd < 2147483648) (g : List Int)
    (hg : ∀ c, 0 ≤ cell g c ∧ cell g c ≤ Bd) :
    ∀ c, 0 ≤ cell (BlockedFloydWarshall bl bc g) c ∧
      cell (BlockedFloydWarshall bl bc g) c ≤ Bd := by
  unfold BlockedFloydWarshall
  exact foldl_preserves (fun x => ∀ c, 0 ≤ cell x c ∧ cell x c ≤ Bd) _
    (fun x _ hx => blockedRound_bnd bl Bd hB x hx) _ g hg

/-! ### The test graphs -/

theorem FloydWarshall_disconnected (n : Nat) (inf : Int) (hinf : 0 ≤ inf)
    (hov : 2 * inf < 2147483648) :
    FloydWarshall n (disconnected n inf) = disconnected n inf := by
  have he : ∀ i j, i < n → j < n →
      entry n (disconnected n inf) i j = if i = j then 0 else inf :=
    fun i j hi hj => entry_matrixOf n _ i j hi hj
  apply FloydWarshall_noop n inf _ hov
  · intro i j hi hj
    rw [he i j hi hj]; split <;> omega
  · intro i j k hi hj hk
    rw [he i j hi hj, he i k hi hk, he k j hk hj]
    by_cases c1 : i = j
    · rw [if_pos c1]; split <;> split <;> omega
    · rw [if_neg c1]
      by_cases c2 : i = k
      · have c3 : ¬ k = j := fun e => c1 (c2.trans e)
        rw [if_pos c2, if_neg c3]; omega
      · rw [if_neg c2]; split <;> omega

theorem tile_first_row (f : Nat → Nat → Int) (c : Nat) (hc : c < 16) :
    cell (matrixOf 16 f) c = f 0 c := by
  rw [cell_matrixOf 16 f c (by omega)]
  have h1 : c / 16 = 0 := by omega
  have h2 : c % 16 = c := by omega
  rw [h1, h2]

theorem tile_disconnected (c : Nat) (hc : c < 4 * 4) :
    cell (disconnected 16 1600) c = if c = 0 then 0 else 1600 := by
  unfold disconnected
  rw [tile_first_row _ c (by omega)]
  by_cases h : c = 0
  · simp [h]
  · have : ¬ 0 = c := fun e => h e.symm
    simp [h, this]

theorem tile_chainGraph (c : Nat) (hc : c < 4 * 4) :
    cell chainGraph c = if c = 0 then 0 else 1600 := by
  unfold chainGraph nodos
  rw [tile_first_row _ c (by omega), infinite_eq]
  by_cases h : c = 0
  · simp [h]
  · have : ¬ 0 = c := fun e => h e.symm
    simp [h, this]

theorem Blocked_chainGraph (bc : Nat) : BlockedFloydWarshall 4 bc chainGraph = chainGraph :=
  Blocked_noop_of_tile 4 bc 1600 chainGraph (by decide) (by decide)
    (by unfold chainGraph nodos; rw [length_matrixOf]; decide) tile_chainGraph

theorem entry_chainGraph (i j : Nat) (hi : i < 16) (hj : j < 16) :
    entry 16 chainGraph i j =
      if i = j then 0 else if (i = 1 ∧ j = 2) ∨ (i = 2 ∧ j = 3) then 1 else 1600 := by
  unfold chainGraph nodos
  rw [entry_matrixOf 16 _ i j hi hj, infinite_eq]

theorem chainGraph_distanceMatrix : DistanceMatrix 16 100 chainGraph where
  len := by unfold chainGraph nodos; rw [length_matrixOf]
  diag := by intro i hi; rw [entry_chainGraph i i hi hi]; simp
  off := by
    intro i j hi hj hij
    rw [entry_chainGraph i j hi hj, if_neg hij]
    split
    · right; decide
    · left; decide

theorem chainGraph_bnd (i j : Nat) (hi : i < 16) (hj : j < 16) :
    0 ≤ entry 16 chainGraph i j ∧ entry 16 chainGraph i j ≤ 1600 := by
  rw [entry_chainGraph i j hi hj]
  split
  · decide
  · split <;> decide

theorem FloydWarshall_chainGraph_le : entry 16 (FloydWarshall 16 chainGraph) 1 3 ≤ 2 := by
  have h := Inv.final 16 1600 chainGraph (by decide) chainGraph_distanceMatrix.len chainGraph_bnd
  have := h.lb 1 3 (by decide) (by decide) [2] (by
    intro v hv
    rw [List.mem_singleton] at hv
    subst hv
    unfold level; decide)
  simp only [walkWeight] at this
  rw [entry_chainGraph 1 2 (by decide) (by decide),
    entry_chainGraph 2 3 (by decide) (by decide)] at this
  simpa using this

theorem Blocked_frame_entry (bc : Nat) (g : List Int) (i j : Nat) (hi : 1 ≤ i) :
    entry 16 (BlockedFloydWarshall 4 bc g) i j = entry 16 g i j := by
  unfold entry
  exact cell_Blocked_frame 4 bc g _ (by omega)

theorem FloydWarshall_ne_Blocked_chainGraph :
    FloydWarshall 16 chainGraph ≠ BlockedFloydWarshall 4 16 chainGraph := by
  intro h
  have h1 := FloydWarshall_chainGraph_le
  rw [h, Blocked_frame_entry 16 chainGraph 1 3 (by decide),
    entry_chainGraph 1 3 (by decide) (by decide)] at h1
  revert h1; decide

theorem cell_indexGraph (c : Nat) :
    cell indexGraph c = if c < 256 then (c : Int) else 0 := by
  split
  · next h =>
    unfold indexGraph nodos
    rw [cell_matrixOf 16 _ c (by omega), Nat.div_add_mod' c 16]
  · next h =>
    apply cell_of_ge
    unfold indexGraph nodos
    rw [length_matrixOf]
    omega

/-! ### Sums that leave the range of `int` -/

theorem cell_foldl_range_le_prefix (f : List Int → Nat → List Int)
    (hf : ∀ g x c, cell (f g x) c ≤ cell g c) (t n : Nat) (h : t ≤ n) (g : List Int) (c : Nat) :
    cell ((List.range n).foldl f g) c ≤ cell ((List.range t).foldl f g) c := by
  obtain ⟨r, rfl⟩ := Nat.exists_eq_add_of_le h
  rw [List.range_add, List.foldl_append]
  exact cell_foldl_le f hf _ _ c

theorem entry_overflowGraph (i j : Nat) (hi : i < 16) (hj : j < 16) :
    entry 16 overflowGraph i j =
      if i = j then 0 else if i = 0 ∧ j = 1 then 2147483647
      else if i = 1 ∧ j = 0 then 1 else 1600 := by
  unfold overflowGraph nodos
  rw [entry_matrixOf 16 _ i j hi hj, infinite_eq]

theorem overflowGraph_range (i j : Nat) (hi : i < 16) (hj : j < 16) :
    0 ≤ entry 16 overflowGraph i j ∧ entry 16 overflowGraph i j ≤ 2147483647 := by
  rw [entry_overflowGraph i j hi hj]
  split
  · decide
  · split
    · decide
    · split <;> decide

theorem add32_zero_left (x : Int) (h0 : 0 ≤ x) (h1 : x ≤ 2147483647) : add32 0 x = x := by
  unfold add32; rw [zero_add]; exact wrap32_eq x (by omega) (by omega)

theorem add32_zero_right (x : Int) (h0 : 0 ≤ x) (h1 : x ≤ 2147483647) : add32 x 0 = x := by
  unfold add32; rw [add_zero]; exact wrap32_eq x (by omega) (by omega)

theorem foldl_range_one {α : Type} (f : α → Nat → α) (a : α) :
    (List.range 1).foldl f a = f a 0 := rfl

theorem foldl_range_two {α : Type} (f : α → Nat → α) (a : α) :
    (List.range 2).foldl f a = f (f a 0) 1 := rfl

theorem overflowGraph_first_steps :
    relax 16 (relax 16 (loopJ 16 0 0 overflowGraph) 0 1 0) 0 1 1
      = relax 16 overflowGraph 0 1 1 := by
  have h00 : cell overflowGraph (0 * 16 + 0) = 0 := by
    have := entry_overflowGraph 0 0 (by decide) (by decide)
    unfold entry at this; rw [this]; decide
  have hrow : loopJ 16 0 0 overflowGraph = overflowGraph := by
    unfold loopJ
    apply foldl_range_fix
    intro j hj
    apply relax_noop
    have hr := overflowGraph_range 0 j (by decide) hj
    unfold entry at hr
    rw [h00, add32_zero_left _ hr.1 hr.2]
    omega
  have h10 : relax 16 overflowGraph 0 1 0 = overflowGraph := by
    apply relax_noop
    have hr := overflowGraph_range 1 0 (by decide) (by decide)
    unfold entry at hr
    rw [h00, add32_zero_right _ hr.1 hr.2]
    omega
  rw [hrow, h10]

theorem overflowGraph_step : entry 16 (relax 16 overflowGraph 0 1 1) 1 1 = -2147483648 := by
  rw [entry_relax 16 overflowGraph 0 1 1 1 1
    (by unfold overflowGraph nodos; rw [length_matrixOf]) (by decide) (by decide) (by decide)]
  rw [entry_overflowGraph 1 1 (by decide) (by decide),
    entry_overflowGraph 1 0 (by decide) (by decide),
    entry_overflowGraph 0 1 (by decide) (by decide)]
  decide

theorem FloydWarshall_overflowGraph :
    entry 16 (FloydWarshall 16 overflowGraph) 1 1 ≤ -2147483648 := by
  have e1 := cell_foldl_range_le_prefix (fun x k => loopI 16 k x)
    (fun x k c => cell_loopI_le 16 k x c) 1 16 (by decide) overflowGraph (1 * 16 + 1)
  rw [foldl_range_one] at e1
  have e2 := cell_foldl_range_le_prefix (fun x i => loopJ 16 0 i x)
    (fun x i c => cell_loopJ_le 16 0 i x c) 2 16 (by decide) overflowGraph (1 * 16 + 1)
  rw [foldl_range_two] at e2
  have e3 := cell_foldl_range_le_prefix (fun x j => relax 16 x 0 1 j)
    (fun x j c => cell_relax_le 16 x 0 1 j c) 2 16 (by decide)
    (loopJ 16 0 0 overflowGraph) (1 * 16 + 1)
  rw [foldl_range_two, overflowGraph_first_steps] at e3
  have e4 := overflowGraph_step
  unfold entry at e4
  have e1' : cell (FloydWarshall 16 overflowGraph) (1 * 16 + 1) ≤
      cell (loopI 16 0 overflowGraph) (1 * 16 + 1) := e1
  have e2' : cell (loopI 16 0 overflowGraph) (1 * 16 + 1) ≤
      cell (loopJ 16 0 1 (loopJ 16 0 0 overflowGraph)) (1 * 16 + 1) := e2
  have e3' : cell (loopJ 16 0 1 (loopJ 16 0 0 overflowGraph)) (1 * 16 + 1) ≤
      cell (relax 16 overflowGraph 0 1 1) (1 * 16 + 1) := e3
  unfold entry
  omega

/-! ### The check of `main` -/

theorem copy_eq (src dst : List Int) (h : dst.length = src.length) : copy src dst = src := by
  unfold copy
  rw [← h, List.drop_length, List.append_nil]

theorem equal_eq (a b : List Int) (h : b.length = a.length) :
    equal a b = decide (a = b) := by
  unfold equal
  rw [← h, List.take_length]

theorem mainCheck_eq (n bl bc : Nat) (g0 : List Int) (h : g0.length = n * n) :
    mainCheck n bl bc g0 =
      decide (BlockedFloydWarshall bl bc g0 =
        BlockedFloydWarshall bl bc (BlockedFloydWarshall bl bc g0)) := by
  unfold mainCheck repetition
  simp only []
  have h1 : copy (BlockedFloydWarshall bl bc g0) (List.replicate (n * n) 0) =
      BlockedFloydWarshall bl bc g0 :=
    copy_eq _ _ (by rw [List.length_replicate, length_Blocked, h])
  rw [h1]
  have h2 : copy (BlockedFloydWarshall bl bc g0)
      (FloydWarshall n (BlockedFloydWarshall bl bc g0)) = BlockedFloydWarshall bl bc g0 :=
    copy_eq _ _ (length_FloydWarshall _ _)
  rw [h2]
  exact equal_eq _ _ (length_Blocked _ _ _)

/-! ### Paths over real edges -/

theorem walkAll_suffix (E : Nat → Nat → Prop) :
    ∀ (l1 : List Nat) (a i : Nat) (l2 : List Nat) (j : Nat),
      WalkAll E a (l1 ++ i :: l2) j → WalkAll E i l2 j := by
  intro l1
  induction l1 with
  | nil => intro a i l2 j h; exact h.2
  | cons v l1 ih => intro a i l2 j h; exact ih v i l2 j h.2

theorem shorten (n : Nat) (m : List Int) (hm : ∀ a b, a < n → b < n → 0 ≤ entry n m a b)
    (E : Nat → Nat → Prop) (j : Nat) (hj : j < n) :
    ∀ (p : List Nat) (i : Nat), i < n → i ≠ j → (∀ v ∈ p, v < n) → WalkAll E i p j →
      ∃ q, (∀ v ∈ q, v < n) ∧ WalkAll E i q j ∧
        walkWeight n m i q j ≤ walkWeight n m i p j ∧ (i :: q).Nodup ∧ j ∉ q := by
  intro p
  induction p with
  | nil =>
    intro i _ _ _ hw
    exact ⟨[], by simp, hw, le_refl _, by simp, by simp⟩
  | cons v p ih =>
    intro i hi hij hp hw
    have hv : v < n := hp v (List.mem_cons_self v p)
    have hp' : ∀ x ∈ p, x < n := fun x hx => hp x (List.mem_cons_of_mem v hx)
    obtain ⟨hE, hw'⟩ := hw
    by_cases hvj : v = j
    · refine ⟨[], by simp, hvj ▸ hE, ?_, by simp, by simp⟩
      have := walkWeight_nonneg n m hm p v j hv hj hp'
      simp only [walkWeight]
      rw [← hvj] at this ⊢
      omega
    · obtain ⟨q', hqn, hqw, hqle, hqnd, hqj⟩ := ih v hv hvj hp' hw'
      by_cases hin : i ∈ v :: q'
      · obtain ⟨l1, l2, e⟩ := List.append_of_mem hin
        have hw2 : WalkAll E i (v :: q') j := ⟨hE, hqw⟩
        rw [e] at hw2
        have hall : ∀ x ∈ v :: q', x < n := by
          intro x hx
          rcases List.mem_cons.1 hx with rfl | h
          · exact hv
          · exact hqn x h
        have hl1 : ∀ x ∈ l1, x < n := fun x hx => hall x (by rw [e]; simp [hx])
        have hl2 : ∀ x ∈ l2, x ∈ v :: q' := fun x hx => by rw [e]; simp [hx]
        refine ⟨l2, fun x hx => hall x (hl2 x hx), walkAll_suffix E l1 i i l2 j hw2, ?_, ?_, ?_⟩
        · have e1 : walkWeight n m i (v :: q') j =
              walkWeight n m i l1 i + walkWeight n m i l2 j := by
            rw [e, walkWeight_append]
          have e2 := walkWeight_nonneg n m hm l1 i i hi hi hl1
          simp only [walkWeight] at e1 ⊢
          omega
        · rw [e] at hqnd
          exact (List.nodup_append.1 hqnd).2.1
        · intro hj2
          rcases List.mem_cons.1 (hl2 j hj2) with h | h
          · exact hvj h.symm
          · exact hqj h
      · refine ⟨v :: q', ?_, ⟨hE, hqw⟩, ?_, List.nodup_cons.2 ⟨hin, hqnd⟩, ?_⟩
        · intro x hx
          rcases List.mem_cons.1 hx with rfl | h
          · exact hv
          · exact hqn x h
        · simp only [walkWeight]; omega
        · intro hj2
          rcases List.mem_cons.1 hj2 with h | h
          · exact hvj h.symm
          · exact hqj h

theorem nodup_length_le (n : Nat) (l : List Nat) (hnd : l.Nodup) (hl : ∀ v ∈ l, v < n) :
    l.length ≤ n := by
  have h1 : l.toFinset ⊆ Finset.range n := by
    intro x hx
    rw [List.mem_toFinset] at hx
    exact Finset.mem_range.2 (hl x hx)
  have h2 := Finset.card_le_card h1
  rw [List.toFinset_card_of_nodup hnd, Finset.card_range] at h2
  exact h2

theorem real_walk_le (n : Nat) (maxd : Int) (m : List Int) (hm : DistanceMatrix n maxd m)
    (hmax : 0 ≤ maxd) :
    ∀ (q : List Nat) (i j : Nat), i < n → j < n → (∀ v ∈ q, v < n) →
      WalkAll (fun u v => entry n m u v ≠ (n : Int) * maxd) i q j →
      walkWeight n m i q j ≤ ((q.length : Int) + 1) * maxd := by
  have step : ∀ u v, u < n → v < n → entry n m u v ≠ (n : Int) * maxd →
      entry n m u v ≤ maxd := by
    intro u v hu hv h
    by_cases e : u = v
    · subst e; rw [hm.diag u hu]; exact hmax
    · rcases hm.off u v hu hv e with h1 | h1
      · exact absurd h1 h
      · exact h1.2
  intro q
  induction q with
  | nil =>
    intro i j hi hj _ hw
    have := step i j hi hj hw
    simp only [walkWeight, List.length_nil]
    simpa using this
  | cons v q ih =>
    intro i j hi hj hq hw
    have hv : v < n := hq v (List.mem_cons_self v q)
    have h1 := step i v hi hv hw.1
    have h2 := ih v j hv hj (fun x hx => hq x (List.mem_cons_of_mem v hx)) hw.2
    have e : (((v :: q).length : Int) + 1) * maxd = ((q.length : Int) + 1) * maxd + maxd := by
      simp only [List.length_cons]; push_cast; ring
    rw [e]
    simp only [walkWeight]
    omega

theorem real_of_weight_lt (n : Nat) (inf : Int) (m : List Int)
    (hm : ∀ a b, a < n → b < n → 0 ≤ entry n m a b) :
    ∀ (p : List Nat) (i j : Nat), i < n → j < n → (∀ v ∈ p, v < n) →
      walkWeight n m i p j < inf → WalkAll (fun u v => entry n m u v ≠ inf) i p j := by
  intro p
  induction p with
  | nil =>
    intro i j _ _ _ h
    simp only [walkWeight] at h
    exact ne_of_lt h
  | cons v p ih =>
    intro i j hi hj hp h
    have hv : v < n := hp v (List.mem_cons_self v p)
    have hp' : ∀ x ∈ p, x < n := fun x hx => hp x (List.mem_cons_of_mem v hx)
    have h1 := hm i v hi hv
    have h2 := walkWeight_nonneg n m hm p v j hv hj hp'
    simp only [walkWeight] at h
    exact ⟨ne_of_lt (by omega), ih v j hv hj hp' (by omega)⟩

theorem pathWeight_walk (n : Nat) (m : List Int) :
    ∀ (p : List Nat) (i j : Nat), pathWeight n m (i :: (p ++ [j])) = walkWeight n m i p j := by
  intro p
  induction p with
  | nil => intro i j; simp [pathWeight, walkWeight]
  | cons v p ih =>
    intro i j
    show entry n m i v + pathWeight n m (v :: (p ++ [j])) =
      entry n m i v + walkWeight n m v p j
    rw [ih v j]

theorem realChain_of_walk (n : Nat) (inf : Int) (m : List Int) :
    ∀ (q : List Nat) (i j : Nat), (i :: q).Nodup → j ∉ i :: q →
      WalkAll (fun u v => entry n m u v ≠ inf) i q j → RealChain n inf m (i :: (q ++ [j])) := by
  intro q
  induction q with
  | nil =>
    intro i j _ hj hw
    have : i ≠ j := fun e => hj (by simp [e])
    exact ⟨this, hw, trivial⟩
  | cons v q ih =>
    intro i j hnd hj hw
    have h1 : i ≠ v := fun e => by
      have := (List.nodup_cons.1 hnd).1
      exact this (by simp [e])
    have h2 : (v :: q).Nodup := (List.nodup_cons.1 hnd).2
    have h3 : j ∉ v :: q := fun h => hj (List.mem_cons_of_mem i h)
    exact ⟨h1, hw.1, ih v j h2 h3 hw.2⟩

theorem walk_of_realChain (n : Nat) (inf : Int) (m : List Int) :
    ∀ (p : List Nat) (i j : Nat), RealChain n inf m (i :: (p ++ [j])) →
      WalkAll (fun u v => entry n m u v ≠ inf) i p j := by
  intro p
  induction p with
  | nil => intro i j h; exact h.2.1
  | cons v p ih => intro i j h; exact ⟨h.2.1, ih v j h.2.2⟩

theorem path_cases (vs : List Nat) (i j : Nat) (h1 : vs.head? = some i)
    (h2 : vs.getLast? = some j) : (vs = [i] ∧ i = j) ∨ ∃ p, vs = i :: (p ++ [j]) := by
  cases vs with
  | nil => simp at h1
  | cons a t =>
    simp only [List.head?_cons, Option.some.injEq] at h1
    subst h1
    rcases List.eq_nil_or_concat t with e | ⟨p, b, e⟩
    · subst e
      simp only [List.getLast?_singleton, Option.some.injEq] at h2
      exact Or.inl ⟨rfl, h2⟩
    · rw [List.concat_eq_append] at e
      subst e
      right
      refine ⟨p, ?_⟩
      have : (a :: (p ++ [b])).getLast? = some b := by
        rw [← List.cons_append, List.getLast?_append]; simp
      rw [this] at h2
      simp only [Option.some.injEq] at h2
      rw [h2]

theorem DistanceMatrix.bnd (n : Nat) (maxd : Int) (m : List Int) (hmax : 1 ≤ maxd)
    (hm : DistanceMatrix n maxd m) (i j : Nat) (hi : i < n) (hj : j < n) :
    0 ≤ entry n m i j ∧ entry n m i j ≤ (n : Int) * maxd := by
  have hn : (1 : Int) ≤ n := by exact_mod_cast (by omega : 1 ≤ n)
  have h1 : maxd ≤ (n : Int) * maxd := by nlinarith
  by_cases e : i = j
  · subst e; rw [hm.diag i hi]; omega
  · rcases hm.off i j hi hj e with h | h
    · rw [h]; omega
    · omega

/-- When some walk over real edges joins `i` to `j`, the final entry is below
the sentinel. -/
theorem reachable_lt (n : Nat) (maxd : Int) (m d : List Int) (hmax : 1 ≤ maxd)
    (hm : DistanceMatrix n maxd m) (h : Inv n ((n : Int) * maxd) m n 0 0 d)
    (i j : Nat) (hi : i < n) (hj : j < n) (hij : i ≠ j) (p : List Nat)
    (hp : ∀ v ∈ p, v < n) (hw : WalkAll (fun u v => entry n m u v ≠ (n : Int) * maxd) i p j) :
    entry n d i j < (n : Int) * maxd := by
  have hnn : ∀ a b, a < n → b < n → 0 ≤ entry n m a b :=
    fun a b ha hb => (DistanceMatrix.bnd n maxd m hmax hm a b ha hb).1
  obtain ⟨q, hqn, hqw, _, hqnd, hqj⟩ := shorten n m hnn _ j hj p i hi hij hp hw
  have hl : level n 0 0 i j = n := by unfold level; simp
  have h1 := h.lb i j hi hj q (by rw [hl]; exact hqn)
  have h2 := real_walk_le n maxd m hm (by omega) q i j hi hj hqn hqw
  have h3 : (j :: i :: q).Nodup :=
    List.nodup_cons.2 ⟨fun hin => by
      rcases List.mem_cons.1 hin with e | e
      · exact hij e.symm
      · exact hqj e, hqnd⟩
  have h4 := nodup_length_le n (j :: i :: q) h3 (by
    intro v hv
    rcases List.mem_cons.1 hv with rfl | hv
    · exact hj
    · rcases List.mem_cons.1 hv with rfl | hv
      · exact hi
      · exact hqn v hv)
  simp only [List.length_cons] at h4
  have h5 : ((q.length : Int) + 1) * maxd < (n : Int) * maxd := by
    have : (q.length : Int) + 1 < n := by exact_mod_cast (by omega : q.length + 1 < n)
    nlinarith
  omega

/-- An entry below the sentinel is the weight of a walk over real edges that
visits no node twice. -/
theorem achieved_by_simple (n : Nat) (inf : Int) (m d : List Int)
    (hnn : ∀ a b, a < n → b < n → 0 ≤ entry n m a b) (h : Inv n inf m n 0 0 d)
    (i j : Nat) (hi : i < n) (hj : j < n) (hij : i ≠ j) (hlt : entry n d i j < inf) :
    ∃ q, (∀ v ∈ q, v < n) ∧ WalkAll (fun u v => entry n m u v ≠ inf) i q j ∧
      (i :: q).Nodup ∧ j ∉ q ∧ entry n d i j = walkWeight n m i q j := by
  obtain ⟨p, hp, e⟩ := h.ach i j hi hj
  have hw := real_of_weight_lt n inf m hnn p i j hi hj hp (by rw [← e]; exact hlt)
  obtain ⟨q, hqn, hqw, hqle, hqnd, hqj⟩ := shorten n m hnn _ j hj p i hi hij hp hw
  have hl : level n 0 0 i j = n := by unfold level; simp
  have h1 := h.lb i j hi hj q (by rw [hl]; exact hqn)
  exact ⟨q, hqn, hqw, hqnd, hqj, by omega⟩

theorem realPath_of_simple (n : Nat) (inf : Int) (m : List Int) (i j : Nat) (hi : i < n)
    (hj : j < n) (hij : i ≠ j) (q : List Nat) (hqn : ∀ v ∈ q, v < n)
    (hqw : WalkAll (fun u v => entry n m u v ≠ inf) i q j) (hqnd : (i :: q).Nodup)
    (hqj : j ∉ q) : RealPath n inf m i j (i :: (q ++ [j])) := by
  refine ⟨by simp, ?_, ?_, ?_⟩
  · rw [← List.cons_append, List.getLast?_append]; simp
  · intro v hv
    rcases List.mem_cons.1 hv with rfl | hv
    · exact hi
    · rcases List.mem_append.1 hv with hv | hv
      · exact hqn v hv
      · rw [List.mem_singleton] at hv; rw [hv]; exact hj
  · apply realChain_of_walk n inf m q i j hqnd _ hqw
    intro hin
    rcases List.mem_cons.1 hin with e | e
    · exact hij e.symm
    · exact hqj e

/-! ### What the kernel leaves in each cell -/

theorem cell_kernelStep (bl : Nat) (A B C : List Int) (k i j c : Nat)
    (h : linear bl i j < C.length) :
    cell (kernelStep bl A B C k i j) c =
      if c = linear bl i j then
        (if cell C c > add32 (acc bl A i k) (acc bl B k j)
          then add32 (acc bl A i k) (acc bl B k j) else cell C c)
      else cell C c := by
  unfold kernelStep acc
  by_cases hc : c = linear bl i j
  · subst hc
    rw [if_pos rfl]
    split
    · rw [cell_set]; simp [h]
    · rfl
  · rw [if_neg hc]
    split
    · rw [cell_set]
      have : ¬ (linear bl i j = c ∧ linear bl i j < C.length) := fun e => hc e.1.symm
      rw [if_neg this]
    · rfl

theorem linear_div (bl i j : Nat) (hj : j < bl) : linear bl i j / bl = i := by
  unfold linear
  have hn : 0 < bl := by omega
  rw [Nat.add_comm, Nat.add_mul_div_right _ _ hn, Nat.div_eq_of_lt hj, Nat.zero_add]

theorem linear_mod (bl i j : Nat) (hj : j < bl) : linear bl i j % bl = j := by
  unfold linear
  rw [Nat.add_comm, Nat.add_mul_mod_self_right, Nat.mod_eq_of_lt hj]

theorem linear_div_mod (bl c : Nat) : linear bl (c / bl) (c % bl) = c := by
  unfold linear
  exact Nat.div_add_mod' c bl

theorem linear_lt (bl i j : Nat) (hi : i < bl) (hj : j < bl) : linear bl i j < bl * bl :=
  idx_lt bl i j hi hj

/-- Row `i` of one phase: the cells of row `i` are relaxed through `k`, every
other cell is left alone. -/
theorem cell_kernelRow (bl : Nat) (A B C : List Int) (k i : Nat) (hi : i < bl)
    (hC : bl * bl ≤ C.length) :
    ((List.range bl).foldl (fun c j => kernelStep bl A B c k i j) C).length = C.length ∧
    ∀ c, cell ((List.range bl).foldl (fun c j => kernelStep bl A B c k i j) C) c =
      if c / bl = i then
        (if cell C c > add32 (acc bl A (c / bl) k) (acc bl B k (c % bl))
          then add32 (acc bl A (c / bl) k) (acc bl B k (c % bl)) else cell C c)
      else cell C c := by
  have key := foldl_range_inv
    (fun t (y : List Int) => y.length = C.length ∧ ∀ c, cell y c =
      if c / bl = i ∧ c % bl < t then
        (if cell C c > add32 (acc bl A (c / bl) k) (acc bl B k (c % bl))
          then add32 (acc bl A (c / bl) k) (acc bl B k (c % bl)) else cell C c)
      else cell C c)
    (fun c j => kernelStep bl A B c k i j) bl C
    ⟨rfl, fun c => by simp⟩
    (by
      intro t y ht ⟨hlen, hy⟩
      refine ⟨by rw [length_kernelStep]; exact hlen, ?_⟩
      intro c
      have hlin : linear bl i t < y.length := by
        have := linear_lt bl i t hi ht
        omega
      rw [cell_kernelStep bl A B y k i t c hlin]
      by_cases hc : c = linear bl i t
      · have h1 : c / bl = i := by rw [hc]; exact linear_div bl i t ht
        have h2 : c % bl = t := by rw [hc]; exact linear_mod bl i t ht
        have h3 : ¬ (c / bl = i ∧ c % bl < t) := by omega
        have h4 : c / bl = i ∧ c % bl < t + 1 := by omega
        rw [if_pos hc, if_pos h4, hy c, if_neg h3, h1, h2]
      · rw [if_neg hc, hy c]
        have h3 : (c / bl = i ∧ c % bl < t + 1) ↔ (c / bl = i ∧ c % bl < t) := by
          constructor
          · rintro ⟨e1, e2⟩
            refine ⟨e1, ?_⟩
            by_contra h
            have e3 : c % bl = t := by omega
            apply hc
            rw [← linear_div_mod bl c, e1, e3]
          · rintro ⟨e1, e2⟩
            exact ⟨e1, by omega⟩
        by_cases h5 : c / bl = i ∧ c % bl < t
        · rw [if_pos h5, if_pos (h3.2 h5)]
        · rw [if_neg h5, if_neg (fun e => h5 (h3.1 e))])
  refine ⟨key.1, ?_⟩
  intro c
  rw [key.2 c]
  by_cases h : c / bl = i
  · have : c % bl < bl := Nat.mod_lt _ (by omega)
    rw [if_pos ⟨h, this⟩, if_pos h]
  · rw [if_neg (fun e => h e.1), if_neg h]

theorem cell_kernelPhase (bl : Nat) (A B C : List Int) (k : Nat) (hC : bl * bl ≤ C.length)
    (c : Nat) :
    cell (kernelPhase bl A B C k) c =
      if c / bl < bl then
        (if cell C c > add32 (acc bl A (c / bl) k) (acc bl B k (c % bl))
          then add32 (acc bl A (c / bl) k) (acc bl B k (c % bl)) else cell C c)
      else cell C c := by
  have key := foldl_range_inv
    (fun t (y : List Int) => y.length = C.length ∧ ∀ c, cell y c =
      if c / bl < t then
        (if cell C c > add32 (acc bl A (c / bl) k) (acc bl B k (c % bl))
          then add32 (acc bl A (c / bl) k) (acc bl B k (c % bl)) else cell C c)
      else cell C c)
    (fun c i => (List.range bl).foldl (fun c j => kernelStep bl A B c k i j) c) bl C
    ⟨rfl, fun c => by simp⟩
    (by
      intro t y ht ⟨hlen, hy⟩
      have hrow := cell_kernelRow bl A B y k t ht (by omega)
      refine ⟨hrow.1.trans hlen, ?_⟩
      intro c
      rw [hrow.2 c, hy c]
      by_cases h1 : c / bl = t
      · have h2 : ¬ c / bl < t := by omega
        have h3 : c / bl < t + 1 := by omega
        rw [if_pos h1, if_neg h2, if_pos h3]
      · rw [if_neg h1]
        by_cases h2 : c / bl < t
        · have h3 : c / bl < t + 1 := by omega
          rw [if_pos h2, if_pos h3]
        · have h3 : ¬ c / bl < t + 1 := by omega
          rw [if_neg h2, if_neg h3])
  exact key.2 c

theorem relaxThrough_succ (s : Nat → Int) (t : Nat) (c : Int) :
    relaxThrough s (t + 1) c =
      if relaxThrough s t c > s t then s t else relaxThrough s t c := by
  unfold relaxThrough
  rw [List.range_succ, List.foldl_append]
  rfl

/-- The value `relaxThrough s t c` is the least of `c`, `s 0`, ..., `s (t - 1)`. -/
theorem relaxThrough_spec (s : Nat → Int) (t : Nat) (c : Int) :
    relaxThrough s t c ≤ c ∧ (∀ k, k < t → relaxThrough s t c ≤ s k) ∧
      (relaxThrough s t c = c ∨ ∃ k, k < t ∧ relaxThrough s t c = s k) := by
  induction t with
  | zero => exact ⟨le_refl _, fun k hk => absurd hk (Nat.not_lt_zero k), Or.inl rfl⟩
  | succ t ih =>
    obtain ⟨h1, h2, h3⟩ := ih
    rw [relaxThrough_succ]
    by_cases h : relaxThrough s t c > s t
    · rw [if_pos h]
      refine ⟨by omega, ?_, Or.inr ⟨t, Nat.lt_succ_self t, rfl⟩⟩
      intro k hk
      rcases Nat.lt_succ_iff_lt_or_eq.1 hk with hk | hk
      · have := h2 k hk; omega
      · rw [hk]
    · rw [if_neg h]
      refine ⟨h1, ?_, ?_⟩
      · intro k hk
        rcases Nat.lt_succ_iff_lt_or_eq.1 hk with hk | hk
        · exact h2 k hk
        · rw [hk]; omega
      · rcases h3 with e | ⟨k, hk, e⟩
        · exact Or.inl e
        · exact Or.inr ⟨k, Nat.lt_succ_of_lt hk, e⟩

theorem cell_Kernel (bl : Nat) (A B C : List Int) (hC : bl * bl ≤ C.length) (c : Nat) :
    cell (KernelBlockedFloydWarshall bl A B C) c =
      if c / bl < bl then
        relaxThrough (fun k => add32 (acc bl A (c / bl) k) (acc bl B k (c % bl))) bl (cell C c)
      else cell C c := by
  have key := foldl_range_inv
    (fun t (y : List Int) => y.length = C.length ∧ ∀ c, cell y c =
      if c / bl < bl then
        relaxThrough (fun k => add32 (acc bl A (c / bl) k) (acc bl B k (c % bl))) t (cell C c)
      else cell C c)
    (fun c k => kernelPhase bl A B c k) bl C
    ⟨rfl, fun c => by unfold relaxThrough; simp⟩
    (by
      intro t y _ ⟨hlen, hy⟩
      refine ⟨by rw [length_kernelPhase]; exact hlen, ?_⟩
      intro c
      rw [cell_kernelPhase bl A B y t (by omega) c, hy c]
      by_cases h : c / bl < bl
      · simp only [if_pos h, relaxThrough_succ]
      · simp only [if_neg h])
  exact key.2 c

theorem cell_Kernel_linear (bl : Nat) (A B C : List Int) (hC : bl * bl ≤ C.length)
    (i j : Nat) (hi : i < bl) (hj : j < bl) :
    acc bl (KernelBlockedFloydWarshall bl A B C) i j =
      relaxThrough (fun k => add32 (acc bl A i k) (acc bl B k j)) bl (acc bl C i j) := by
  show cell (KernelBlockedFloydWarshall bl A B C) (linear bl i j) = _
  rw [cell_Kernel bl A B C hC, linear_div bl i j hj, linear_mod bl i j hj, if_pos hi]
  rfl

theorem cell_workItem (bl : Nat) (A B C : List Int) (i j : Nat)
    (h : linear bl i j < C.length) (c : Nat) :
    cell (workItem bl A B C i j) c =
      if c = linear bl i j then
        relaxThrough (fun k => add32 (acc bl A i k) (acc bl B k j)) bl (cell C c)
      else cell C c := by
  have key := foldl_range_inv
    (fun t (y : List Int) => y.length = C.length ∧ ∀ c, cell y c =
      if c = linear bl i j then
        relaxThrough (fun k => add32 (acc bl A i k) (acc bl B k j)) t (cell C c)
      else cell C c)
    (fun c k => kernelStep bl A B c k i j) bl C
    ⟨rfl, fun c => by unfold relaxThrough; simp⟩
    (by
      intro t y _ ⟨hlen, hy⟩
      refine ⟨by rw [length_kernelStep]; exact hlen, ?_⟩
      intro c
      rw [cell_kernelStep bl A B y t i j c (by omega), hy c]
      by_cases hc : c = linear bl i j
      · simp only [if_pos hc, relaxThrough_succ]
      · simp only [if_neg hc])
  exact key.2 c

/-! ### Rounds of the tiled engine as walks in the tile -/

theorem entry_blockedRound (bl : Nat) (g : List Int) (hlen : bl * bl ≤ g.length)
    (i j : Nat) (hi : i < bl) (hj : j < bl) :
    entry bl (blockedRound bl g) i j =
      relaxThrough (fun k => add32 (acc bl (buffer bl g) i k) (acc bl (buffer bl g) k j)) bl
        (entry bl g i j) := by
  have hb : (buffer bl g).length = bl * bl := by
    unfold buffer; rw [List.length_take]; omega
  have hlin := linear_lt bl i j hi hj
  unfold blockedRound
  simp only []
  unfold entry
  rw [cell_writeBack, length_Kernel, hb]
  have e : i * bl + j = linear bl i j := rfl
  rw [e, if_pos hlin]
  have := cell_Kernel_linear bl (buffer bl g) (buffer bl g) (buffer bl g) (by omega) i j hi hj
  unfold acc at this
  rw [this, cell_buffer bl g _ (by omega)]
  rfl

theorem tileInv_init (bl : Nat) (B : Int) (m : List Int)
    (hbnd : ∀ c, 0 ≤ cell m c ∧ cell m c ≤ B) : TileInv bl B m 0 m where
  len := rfl
  bnd := hbnd
  ach := fun i j _ _ => ⟨[], by simp, rfl⟩
  lb := by
    intro i j _ _ p _ hp
    cases p with
    | nil => exact le_refl _
    | cons v p => simp at hp

theorem tileInv_round (bl : Nat) (B : Int) (m : List Int) (hB : 2 * B < 2147483648)
    (hlen : bl * bl ≤ m.length) (r : Nat) (g : List Int) (h : TileInv bl B m r g) :
    TileInv bl B m (r + 1) (blockedRound bl g) := by
  have hglen : bl * bl ≤ g.length := by rw [h.len]; exact hlen
  have hsum : ∀ i j k, i < bl → j < bl → k < bl →
      add32 (acc bl (buffer bl g) i k) (acc bl (buffer bl g) k j) =
        entry bl g i k + entry bl g k j := by
    intro i j k hi hj hk
    rw [acc_buffer bl g i k hi hk hglen, acc_buffer bl g k j hk hj hglen]
    have h1 := h.bnd (i * bl + k)
    have h2 := h.bnd (k * bl + j)
    exact add32_eq _ _ B hB h1.1 h1.2 h2.1 h2.2
  have hnew : ∀ i j, i < bl → j < bl →
      entry bl (blockedRound bl g) i j ≤ entry bl g i j ∧
      (∀ k, k < bl → entry bl (blockedRound bl g) i j ≤ entry bl g i k + entry bl g k j) ∧
      (entry bl (blockedRound bl g) i j = entry bl g i j ∨
        ∃ k, k < bl ∧ entry bl (blockedRound bl g) i j = entry bl g i k + entry bl g k j) := by
    intro i j hi hj
    rw [entry_blockedRound bl g hglen i j hi hj]
    obtain ⟨s1, s2, s3⟩ := relaxThrough_spec
      (fun k => add32 (acc bl (buffer bl g) i k) (acc bl (buffer bl g) k j)) bl (entry bl g i j)
    refine ⟨s1, ?_, ?_⟩
    · intro k hk
      exact (hsum i j k hi hj hk) ▸ s2 k hk
    · rcases s3 with e | ⟨k, hk, e⟩
      · exact Or.inl e
      · exact Or.inr ⟨k, hk, (hsum i j k hi hj hk) ▸ e⟩
  refine ⟨(length_blockedRound bl g).trans h.len, blockedRound_bnd bl B hB g h.bnd, ?_, ?_⟩
  · intro i j hi hj
    rcases (hnew i j hi hj).2.2 with e | ⟨k, hk, e⟩
    · rw [e]; exact h.ach i j hi hj
    · obtain ⟨p1, hp1, e1⟩ := h.ach i k hi hk
      obtain ⟨p2, hp2, e2⟩ := h.ach k j hk hj
      refine ⟨p1 ++ k :: p2, ?_, ?_⟩
      · intro v hv
        rcases List.mem_append.1 hv with hv | hv
        · exact hp1 v hv
        · rcases List.mem_cons.1 hv with rfl | hv
          · exact hk
          · exact hp2 v hv
      · rw [e, walkWeight_append, e1, e2]
  · intro i j hi hj p hp hpl
    by_cases hs : p.length < 2 ^ r
    · exact le_trans (hnew i j hi hj).1 (h.lb i j hi hj p hp hs)
    · have hpos : 0 < 2 ^ r := Nat.two_pow_pos r
      have hpow : 2 ^ (r + 1) = 2 * 2 ^ r := by rw [pow_succ]; ring
      have ht : 2 ^ r - 1 < p.length := by omega
      have hsplit : p = p.take (2 ^ r - 1) ++ p[2 ^ r - 1] :: p.drop (2 ^ r - 1 + 1) := by
        rw [← List.drop_eq_getElem_cons ht, List.take_append_drop]
      have hk : p[2 ^ r - 1] < bl := hp _ (List.getElem_mem ht)
      have h1 := h.lb i (p[2 ^ r - 1]) hi hk (p.take (2 ^ r - 1))
        (fun v hv => hp v (List.mem_of_mem_take hv))
        (by rw [List.length_take]; omega)
      have h2 := h.lb (p[2 ^ r - 1]) j hk hj (p.drop (2 ^ r - 1 + 1))
        (fun v hv => hp v (List.mem_of_mem_drop hv))
        (by rw [List.length_drop]; omega)
      have h3 := (hnew i j hi hj).2.1 _ hk
      have h4 : walkWeight bl m i p j =
          walkWeight bl m i (p.take (2 ^ r - 1)) (p[2 ^ r - 1]) +
            walkWeight bl m (p[2 ^ r - 1]) (p.drop (2 ^ r - 1 + 1)) j := by
        conv_lhs => rw [hsplit]
        rw [walkWeight_append]
      omega

theorem tileInv_final (bl bc : Nat) (B : Int) (m : List Int) (hB : 2 * B < 2147483648)
    (hlen : bl * bl ≤ m.length) (hbnd : ∀ c, 0 ≤ cell m c ∧ cell m c ≤ B) :
    TileInv bl B m bc (BlockedFloydWarshall bl bc m) :=
  foldl_range_inv (fun r x => TileInv bl B m r x) (fun x _ => blockedRound bl x) bc m
    (tileInv_init bl B m hbnd) (fun r x _ hx => tileInv_round bl B m hB hlen r x hx)

theorem walkAll_true : ∀ (p : List Nat) (i j : Nat), WalkAll (fun _ _ => True) i p j := by
  intro p
  induction p with
  | nil => intro i j; trivial
  | cons v p ih => intro i j; exact ⟨trivial, ih v j⟩

/-- Every walk in a graph on `n` nodes with non-negative weights is matched by
one of at most `n` edges that weighs no more. -/
theorem shorten_any (n : Nat) (m : List Int) (hm : ∀ a b, a < n → b < n → 0 ≤ entry n m a b) :
    ∀ (p : List Nat) (i j : Nat), i < n → j < n → (∀ v ∈ p, v < n) →
      ∃ q, (∀ v ∈ q, v < n) ∧ q.length + 1 ≤ n ∧
        walkWeight n m i q j ≤ walkWeight n m i p j := by
  have hne : ∀ (p : List Nat) (i j : Nat), i < n → j < n → i ≠ j → (∀ v ∈ p, v < n) →
      ∃ q, (∀ v ∈ q, v < n) ∧ q.length + 2 ≤ n ∧
        walkWeight n m i q j ≤ walkWeight n m i p j := by
    intro p i j hi hj hij hp
    obtain ⟨q, hqn, _, hqle, hqnd, hqj⟩ :=
      shorten n m hm (fun _ _ => True) j hj p i hi hij hp (walkAll_true p i j)
    refine ⟨q, hqn, ?_, hqle⟩
    have h3 : (j :: i :: q).Nodup :=
      List.nodup_cons.2 ⟨fun hin => by
        rcases List.mem_cons.1 hin with e | e
        · exact hij e.symm
        · exact hqj e, hqnd⟩
    have h4 := nodup_length_le n (j :: i :: q) h3 (by
      intro v hv
      rcases List.mem_cons.1 hv with rfl | hv
      · exact hj
      · rcases List.mem_cons.1 hv with rfl | hv
        · exact hi
        · exact hqn v hv)
    simpa using h4
  intro p
  induction p with
  | nil =>
    intro i j hi _ _
    exact ⟨[], by simp, by simp; omega, le_refl _⟩
  | cons v p ih =>
    intro i j hi hj hp
    have hv : v < n := hp v (List.mem_cons_self v p)
    have hp' : ∀ x ∈ p, x < n := fun x hx => hp x (List.mem_cons_of_mem v hx)
    by_cases hij : i = j
    · by_cases hvi : v = j
      · obtain ⟨q, hqn, hql, hqle⟩ := ih v j hv hj hp'
        refine ⟨q, hqn, hql, ?_⟩
        have := hm i v hi hv
        simp only [walkWeight]
        rw [hij, hvi] at *
        omega
      · obtain ⟨q, hqn, hql, hqle⟩ := hne p v j hv hj hvi hp'
        refine ⟨v :: q, ?_, by simp; omega, ?_⟩
        · intro x hx
          rcases List.mem_cons.1 hx with rfl | hx
          · exact hv
          · exact hqn x hx
        · simp only [walkWeight]; omega
    · obtain ⟨q, hqn, hql, hqle⟩ := hne (v :: p) i j hi hj hij hp
      exact ⟨q, hqn, by omega, hqle⟩

theorem tileInv_triangle (bl bc : Nat) (B : Int) (m d : List Int)
    (hbnd : ∀ c, 0 ≤ cell m c ∧ cell m c ≤ B) (hpow : bl ≤ 2 ^ bc)
    (h : TileInv bl B m bc d) (i j k : Nat) (hi : i < bl) (hj : j < bl) (hk : k < bl) :
    entry bl d i j ≤ entry bl d i k + entry bl d k j := by
  have hm : ∀ a b, a < bl → b < bl → 0 ≤ entry bl m a b := fun a b _ _ => (hbnd _).1
  obtain ⟨p1, hp1, e1⟩ := h.ach i k hi hk
  obtain ⟨p2, hp2, e2⟩ := h.ach k j hk hj
  have hp : ∀ v ∈ p1 ++ k :: p2, v < bl := by
    intro v hv
    rcases List.mem_append.1 hv with hv | hv
    · exact hp1 v hv
    · rcases List.mem_cons.1 hv with rfl | hv
      · exact hk
      · exact hp2 v hv
  obtain ⟨q, hqn, hql, hqle⟩ := shorten_any bl m hm (p1 ++ k :: p2) i j hi hj hp
  have := h.lb i j hi hj q hqn (by omega)
  rw [walkWeight_append, ← e1, ← e2] at hqle
  omega

theorem Blocked_fixed_after_rounds (bl bc : Nat) (B : Int) (m : List Int) (hB : 2 * B < 2147483648)
    (hlen : bl * bl ≤ m.length) (hbnd : ∀ c, 0 ≤ cell m c ∧ cell m c ≤ B)
    (hpow : bl ≤ 2 ^ bc) :
    BlockedFloydWarshall bl bc (BlockedFloydWarshall bl bc m) = BlockedFloydWarshall bl bc m := by
  have h := tileInv_final bl bc B m hB hlen hbnd
  have hdlen : bl * bl ≤ (BlockedFloydWarshall bl bc m).length := by rw [h.len]; exact hlen
  apply Blocked_noop
  intro i j k hi hj hk
  rw [acc_buffer bl _ i j hi hj hdlen, acc_buffer bl _ i k hi hk hdlen,
    acc_buffer bl _ k j hk hj hdlen]
  have h1 := h.bnd (i * bl + k)
  have h2 := h.bnd (k * bl + j)
  rw [add32_eq _ _ B hB h1.1 h1.2 h2.1 h2.2]
  have := tileInv_triangle bl bc B m _ hbnd hpow h i j k hi hj hk
  unfold entry at this
  omega

/-! ### The run of the sequential engine step by step -/

theorem foldl_flatMap {α β γ : Type} (f : α → γ → α) (g : β → List γ) :
    ∀ (l : List β) (a : α),
      (l.flatMap g).foldl f a = l.foldl (fun a b => (g b).foldl f a) a := by
  intro l
  induction l with
  | nil => intro a; rfl
  | cons b l ih => intro a; rw [List.flatMap_cons, List.foldl_append, ih]; rfl

theorem FloydWarshall_eq_steps (n : Nat) (g : List Int) :
    FloydWarshall n g = (steps n).foldl (relaxStep n) g := by
  unfold FloydWarshall loopI loopJ steps
  rw [foldl_flatMap]
  congr 1
  funext x k
  rw [foldl_flatMap]
  congr 1
  funext y i
  rw [List.foldl_map]
  rfl

theorem stateAfter_length (n : Nat) (g : List Int) :
    stateAfter n g (steps n).length = FloydWarshall n g := by
  unfold stateAfter
  rw [List.take_length, FloydWarshall_eq_steps]

theorem relax_bnd (n : Nat) (B : Int) (hB : 2 * B < 2147483648) (g : List Int) (k i j : Nat)
    (h : ∀ c, 0 ≤ cell g c ∧ cell g c ≤ B) :
    ∀ c, 0 ≤ cell (relax n g k i j) c ∧ cell (relax n g k i j) c ≤ B := by
  intro c
  have h1 := h (i * n + k)
  have h2 := h (k * n + j)
  have h3 := h (i * n + j)
  unfold relax
  rw [add32_eq _ _ B hB h1.1 h1.2 h2.1 h2.2]
  split
  · rw [cell_set]
    split
    · omega
    · exact h c
  · exact h c

theorem stateAfter_bnd (n : Nat) (B : Int) (hB : 2 * B < 2147483648) (g : List Int)
    (h : ∀ c, 0 ≤ cell g c ∧ cell g c ≤ B) (t : Nat) :
    ∀ c, 0 ≤ cell (stateAfter n g t) c ∧ cell (stateAfter n g t) c ≤ B := by
  unfold stateAfter
  exact foldl_preserves (fun x => ∀ c, 0 ≤ cell x c ∧ cell x c ≤ B) (relaxStep n)
    (fun x s hx => relax_bnd n B hB x s.1 s.2.1 s.2.2 hx) _ g h

theorem foldl_congr_inv {β : Type} (P : List Int → Prop) (f f' : List Int → β → List Int)
    (hP : ∀ g x, P g → P (f g x)) (hf : ∀ g x, P g → f g x = f' g x) :
    ∀ (l : List β) (g : List Int), P g → l.foldl f g = l.foldl f' g := by
  intro l
  induction l with
  | nil => intro g _; rfl
  | cons x l ih =>
    intro g hg
    simp only [List.foldl_cons]
    rw [← hf g x hg]
    exact ih (f g x) (hP g x hg)

theorem relax_eq_unbounded (n : Nat) (B : Int) (hB : 2 * B < 2147483648) (g : List Int)
    (k i j : Nat) (h : ∀ c, 0 ≤ cell g c ∧ cell g c ≤ B) :
    relax n g k i j = relaxUnbounded n g k i j := by
  have h1 := h (i * n + k)
  have h2 := h (k * n + j)
  unfold relax relaxUnbounded
  rw [add32_eq _ _ B hB h1.1 h1.2 h2.1 h2.2]

theorem FloydWarshall_eq_unbounded (n : Nat) (B : Int) (hB : 2 * B < 2147483648)
    (g : List Int) (h : ∀ c, 0 ≤ cell g c ∧ cell g c ≤ B) :
    FloydWarshall n g = FloydWarshallUnbounded n g := by
  have hJ : ∀ k i x, (∀ c, 0 ≤ cell x c ∧ cell x c ≤ B) →
      loopJ n k i x = (List.range n).foldl (fun g j => relaxUnbounded n g k i j) x := by
    intro k i x hx
    exact foldl_congr_inv (fun x => ∀ c, 0 ≤ cell x c ∧ cell x c ≤ B) _ _
      (fun y j hy => relax_bnd n B hB y k i j hy)
      (fun y j hy => relax_eq_unbounded n B hB y k i j hy) _ x hx
  have hJb : ∀ k i x, (∀ c, 0 ≤ cell x c ∧ cell x c ≤ B) →
      ∀ c, 0 ≤ cell (loopJ n k i x) c ∧ cell (loopJ n k i x) c ≤ B := by
    intro k i x hx
    exact foldl_preserves (fun x => ∀ c, 0 ≤ cell x c ∧ cell x c ≤ B) _
      (fun y j hy => relax_bnd n B hB y k i j hy) _ x hx
  have hI : ∀ k x, (∀ c, 0 ≤ cell x c ∧ cell x c ≤ B) →
      loopI n k x = (List.range n).foldl (fun g i =>
        (List.range n).foldl (fun g j => relaxUnbounded n g k i j) g) x := by
    intro k x hx
    exact foldl_congr_inv (fun x => ∀ c, 0 ≤ cell x c ∧ cell x c ≤ B) _ _
      (fun y i hy => hJb k i y hy) (fun y i hy => hJ k i y hy) _ x hx
  have hIb : ∀ k x, (∀ c, 0 ≤ cell x c ∧ cell x c ≤ B) →
      ∀ c, 0 ≤ cell (loopI n k x) c ∧ cell (loopI n k x) c ≤ B := by
    intro k x hx
    exact foldl_preserves (fun x => ∀ c, 0 ≤ cell x c ∧ cell x c ≤ B) _
      (fun y i hy => hJb k i y hy) _ x hx
  exact foldl_congr_inv (fun x => ∀ c, 0 ≤ cell x c ∧ cell x c ≤ B) _ _
    (fun y k hy => hIb k y hy) (fun y k hy => hI k y hy) _ g h

theorem cell_bnd_of_cells (n : Nat) (B : Int) (m : List Int) (hlen : m.length = n * n)
    (hB : 0 ≤ B) (hbnd : ∀ c, c < n * n → 0 ≤ cell m c ∧ cell m c ≤ B) (c : Nat) :
    0 ≤ cell m c ∧ cell m c ≤ B := by
  by_cases hc : c < n * n
  · exact hbnd c hc
  · rw [cell_of_ge m c (by omega)]
    exact ⟨le_refl _, hB⟩

/-! ### The state after each pivot -/

theorem within_mono (n : Nat) (m : List Int) (k k' : Nat) (hk : k ≤ k') (g : List Int)
    (h : Within n m k g) : Within n m k' g := by
  intro i j hi hj
  obtain ⟨p, hp, e⟩ := h i j hi hj
  exact ⟨p, fun v hv => lt_of_lt_of_le (hp v hv) hk, e⟩

theorem within_relax (n : Nat) (B : Int) (m : List Int) (hB : 2 * B < 2147483648)
    (k i j : Nat) (hk : k < n) (hi : i < n) (hj : j < n) (g : List Int)
    (h : Inv n B m k i j g) (hw : Within n m (k + 1) g) :
    Within n m (k + 1) (relax n g k i j) := by
  have hik := h.bnd i k hi hk
  have hkj := h.bnd k j hk hj
  have hadd : add32 (entry n g i k) (entry n g k j) = entry n g i k + entry n g k j :=
    add32_eq _ _ B hB hik.1 hik.2 hkj.1 hkj.2
  intro a b ha hb
  rw [entry_relax n g k i j a b h.len hi hj hb, hadd]
  split
  · next hab =>
    obtain ⟨rfl, rfl⟩ := hab
    split
    · obtain ⟨p1, hp1, e1⟩ := hw a k hi hk
      obtain ⟨p2, hp2, e2⟩ := hw k b hk hj
      refine ⟨p1 ++ k :: p2, ?_, ?_⟩
      · intro v hv
        rcases List.mem_append.1 hv with hv | hv
        · exact hp1 v hv
        · rcases List.mem_cons.1 hv with rfl | hv
          · exact Nat.lt_succ_self _
          · exact hp2 v hv
      · rw [walkWeight_append, e1, e2]
    · exact hw a b hi hj
  · exact hw a b ha hb

theorem within_loopJ (n : Nat) (B : Int) (m : List Int) (hB : 2 * B < 2147483648)
    (hm : ∀ a b, a < n → b < n → 0 ≤ entry n m a b)
    (k i : Nat) (hk : k < n) (hi : i < n) (g : List Int)
    (h : Inv n B m k i 0 g) (hw : Within n m (k + 1) g) :
    Within n m (k + 1) (loopJ n k i g) :=
  (foldl_range_inv (fun j x => Inv n B m k i j x ∧ Within n m (k + 1) x)
    (fun x j => Oneapi.relax n x k i j) n g ⟨h, hw⟩
    (fun t x ht hx => ⟨Inv.relax n B m hB hm k i t hk hi ht x hx.1,
      within_relax n B m hB k i t hk hi ht x hx.1 hx.2⟩)).2

theorem within_loopI (n : Nat) (B : Int) (m : List Int) (hB : 2 * B < 2147483648)
    (hm : ∀ a b, a < n → b < n → 0 ≤ entry n m a b)
    (k : Nat) (hk : k < n) (g : List Int)
    (h : Inv n B m k 0 0 g) (hw : Within n m (k + 1) g) :
    Within n m (k + 1) (loopI n k g) :=
  (foldl_range_inv (fun i x => Inv n B m k i 0 x ∧ Within n m (k + 1) x)
    (fun x i => Oneapi.loopJ n k i x) n g ⟨h, hw⟩
    (fun t x ht hx => ⟨Inv.loopJ n B m hB hm k t hk ht x hx.1,
      within_loopJ n B m hB hm k t hk ht x hx.1 hx.2⟩)).2

theorem afterPivot_inv (n : Nat) (B : Int) (m : List Int) (hB : 2 * B < 2147483648)
    (hlen : m.length = n * n)
    (hbnd : ∀ i j, i < n → j < n → 0 ≤ entry n m i j ∧ entry n m i j ≤ B)
    (k : Nat) (hk : k < n) :
    Inv n B m (k + 1) 0 0 (afterPivot n m k) ∧ Within n m (k + 1) (afterPivot n m k) := by
  have hm : ∀ a b, a < n → b < n → 0 ≤ entry n m a b := fun a b ha hb => (hbnd a b ha hb).1
  unfold afterPivot
  exact foldl_range_inv (fun t x => Inv n B m t 0 0 x ∧ Within n m t x)
    (fun x t => Oneapi.loopI n t x) (k + 1) m
    ⟨Inv.init n B m hlen hbnd, fun i j _ _ => ⟨[], by simp, rfl⟩⟩
    (fun t x ht hx =>
      ⟨Inv.loopI n B m hB hm t (by omega) x hx.1,
        within_loopI n B m hB hm t (by omega) x hx.1
          (within_mono n m t (t + 1) (Nat.le_succ t) x hx.2)⟩)

theorem cell_afterPivot_le (n : Nat) (g : List Int) (k c : Nat) :
    cell (afterPivot n g k) c ≤ cell g c :=
  cell_foldl_le (fun x k => loopI n k x) (fun x k c => cell_loopI_le n k x c) _ g c

theorem walkAll_of_bound (k j : Nat) :
    ∀ (p : List Nat) (i : Nat), (∀ v ∈ p, v ≤ k) →
      WalkAll (fun _ v => v ≤ k ∨ v = j) i p j := by
  intro p
  induction p with
  | nil => intro i _; exact Or.inr rfl
  | cons v p ih =>
    intro i hp
    exact ⟨Or.inl (hp v (List.mem_cons_self v p)),
      ih v (fun x hx => hp x (List.mem_cons_of_mem v hx))⟩

theorem bound_of_walkAll (k j : Nat) :
    ∀ (q : List Nat) (i : Nat), WalkAll (fun _ v => v ≤ k ∨ v = j) i q j →
      ∀ v ∈ q, v ≤ k ∨ v = j := by
  intro q
  induction q with
  | nil => intro i _ v hv; simp at hv
  | cons u q ih =>
    intro i hw v hv
    rcases List.mem_cons.1 hv with rfl | hv
    · exact hw.1
    · exact ih u hw.2 v hv

/-! ### The fully connected graph -/

theorem FloydWarshall_fullyConnected (n : Nat) (w : Int) (hw : 0 ≤ w)
    (hov : 2 * w < 2147483648) :
    FloydWarshall n (fullyConnected n w) = fullyConnected n w :=
  FloydWarshall_disconnected n w hw hov

theorem tile_fullyConnected (c : Nat) (hc : c < 4 * 4) :
    cell (fullyConnected 16 1) c = if c = 0 then 0 else 1 := by
  unfold fullyConnected
  rw [tile_first_row _ c (by omega)]
  by_cases h : c = 0
  · simp [h]
  · have : ¬ 0 = c := fun e => h e.symm
    simp [h, this]

theorem Blocked_fullyConnected (bc : Nat) :
    BlockedFloydWarshall 4 bc (fullyConnected 16 1) = fullyConnected 16 1 :=
  Blocked_noop_of_tile 4 bc 1 (fullyConnected 16 1) (by decide) (by decide)
    (by unfold fullyConnected; rw [length_matrixOf]; decide) tile_fullyConnected

theorem chainGraph_cells (c : Nat) : 0 ≤ cell chainGraph c ∧ cell chainGraph c ≤ 1600 :=
  cell_bnd_of_entries 16 1600 chainGraph chainGraph_distanceMatrix.len (by decide)
    chainGraph_bnd c

theorem cell_kernelStep_other (bl : Nat) (A B C : List Int) (k i j c : Nat)
    (hc : c ≠ linear bl i j) : cell (kernelStep bl A B C k i j) c = cell C c := by
  unfold kernelStep
  split
  · rw [cell_set]
    have : ¬ (linear bl i j = c ∧ linear bl i j < C.length) := fun e => hc e.1.symm
    rw [if_neg this]
  · rfl

theorem cell_workItem_other (bl : Nat) (A B C : List Int) (i j c : Nat)
    (hc : c ≠ linear bl i j) : cell (workItem bl A B C i j) c = cell C c := by
  unfold workItem
  exact foldl_range_inv (fun _ y => cell y c = cell C c)
    (fun y k => kernelStep bl A B y k i j) bl C rfl
    (fun t y _ hy => (cell_kernelStep_other bl A B y t i j c hc).trans hy)

/-! ## The claims -/

/-- C1 fails on the code: `chainGraph` is a distance matrix for the constants
of the source (16 nodes, blocks of 4, weights up to 100), `FloydWarshall` finds
the path `1 → 2 → 3` and lowers entry `(1, 3)` to at most 2, while
`BlockedFloydWarshall` leaves it at `infinite`; the two results differ. -/
theorem Blocked_differs_from_FloydWarshall :
    DistanceMatrix nodos max_distance chainGraph ∧
    entry nodos (FloydWarshall nodos chainGraph) 1 3 ≤ 2 ∧
    entry nodos (BlockedFloydWarshall block_length block_count chainGraph) 1 3 = infinite ∧
    FloydWarshall nodos chainGraph ≠
      BlockedFloydWarshall block_length block_count chainGraph := by
  refine ⟨chainGraph_distanceMatrix, FloydWarshall_chainGraph_le, ?_,
    FloydWarshall_ne_Blocked_chainGraph⟩
  rw [infinite_eq]
  unfold block_length block_count nodos
  rw [Blocked_frame_entry 16 chainGraph 1 3 (by decide),
    entry_chainGraph 1 3 (by decide) (by decide)]
  decide

/-- C2: for every `n`×`n` distance matrix `m` (zero diagonal, every other
entry either the sentinel `n * maxd` or a weight in `[1, maxd]`; `maxd ≥ 1` and
twice the sentinel within the range of `int`), entry `(i, j)` of
`FloydWarshall n m` is the minimum weight of the paths from `i` to `j` over
real edges of `m`: it is at most the weight of every such path, it is the
weight of one of them when there is any, and it is exactly the sentinel when
there is none. -/
theorem FloydWarshall_shortest_paths (n : Nat) (maxd : Int) (m : List Int)
    (hmax : 1 ≤ maxd) (hov : 2 * ((n : Int) * maxd) < 2147483648)
    (hm : DistanceMatrix n maxd m) (i j : Nat) (hi : i < n) (hj : j < n) :
    (∀ vs, RealPath n ((n : Int) * maxd) m i j vs →
      entry n (FloydWarshall n m) i j ≤ pathWeight n m vs) ∧
    ((∃ vs, RealPath n ((n : Int) * maxd) m i j vs) →
      ∃ vs, RealPath n ((n : Int) * maxd) m i j vs ∧
        entry n (FloydWarshall n m) i j = pathWeight n m vs) ∧
    ((¬ ∃ vs, RealPath n ((n : Int) * maxd) m i j vs) →
      entry n (FloydWarshall n m) i j = (n : Int) * maxd) := by
  have hbnd := DistanceMatrix.bnd n maxd m hmax hm
  have hnn : ∀ a b, a < n → b < n → 0 ≤ entry n m a b := fun a b ha hb => (hbnd a b ha hb).1
  have h := Inv.final n ((n : Int) * maxd) m hov hm.len hbnd
  have hl : level n 0 0 i j = n := by unfold level; simp
  have hmono : entry n (FloydWarshall n m) i j ≤ entry n m i j := cell_FloydWarshall_le n m _
  have hd := h.bnd i j hi hj
  have hself : i = j → entry n (FloydWarshall n m) i j = 0 := by
    intro e
    subst e
    have := hm.diag i hi
    omega
  have htriv : i = j → RealPath n ((n : Int) * maxd) m i j [i] := by
    intro e
    refine ⟨rfl, by simp [e], ?_, trivial⟩
    intro v hv
    rw [List.mem_singleton] at hv
    rw [hv]; exact hi
  refine ⟨?_, ?_, ?_⟩
  · intro vs hvs
    rcases path_cases vs i j hvs.1 hvs.2.1 with ⟨e1, e2⟩ | ⟨p, e⟩
    · rw [e1, hself e2]; simp [pathWeight]
    · rw [e, pathWeight_walk]
      apply h.lb i j hi hj p
      rw [hl]
      intro v hv
      exact hvs.2.2.1 v (by rw [e]; simp [hv])
  · rintro ⟨vs, hvs⟩
    by_cases hij : i = j
    · exact ⟨[i], htriv hij, by rw [hself hij]; simp [pathWeight]⟩
    · rcases path_cases vs i j hvs.1 hvs.2.1 with ⟨_, e2⟩ | ⟨p, e⟩
      · exact absurd e2 hij
      · have hp : ∀ v ∈ p, v < n := fun v hv => hvs.2.2.1 v (by rw [e]; simp [hv])
        have hw := walk_of_realChain n _ m p i j (e ▸ hvs.2.2.2)
        have hlt := reachable_lt n maxd m _ hmax hm h i j hi hj hij p hp hw
        obtain ⟨q, hqn, hqw, hqnd, hqj, hq⟩ :=
          achieved_by_simple n _ m _ hnn h i j hi hj hij hlt
        exact ⟨i :: (q ++ [j]), realPath_of_simple n _ m i j hi hj hij q hqn hqw hqnd hqj,
          by rw [pathWeight_walk]; exact hq⟩
  · intro hno
    have hij : i ≠ j := fun e => hno ⟨[i], htriv e⟩
    by_contra hne
    have hlt : entry n (FloydWarshall n m) i j < (n : Int) * maxd := by omega
    obtain ⟨q, hqn, hqw, hqnd, hqj, _⟩ := achieved_by_simple n _ m _ hnn h i j hi hj hij hlt
    exact hno ⟨i :: (q ++ [j]), realPath_of_simple n _ m i j hi hj hij q hqn hqw hqnd hqj⟩

/-- Witness for C2: `chainGraph` with the constants of the source, from node 1
to node 3. -/
theorem FloydWarshall_shortest_paths_witness :
    (∀ vs, RealPath 16 (((16 : Nat) : Int) * 100) chainGraph 1 3 vs →
      entry 16 (FloydWarshall 16 chainGraph) 1 3 ≤ pathWeight 16 chainGraph vs) ∧
    ((∃ vs, RealPath 16 (((16 : Nat) : Int) * 100) chainGraph 1 3 vs) →
      ∃ vs, RealPath 16 (((16 : Nat) : Int) * 100) chainGraph 1 3 vs ∧
        entry 16 (FloydWarshall 16 chainGraph) 1 3 = pathWeight 16 chainGraph vs) ∧
    ((¬ ∃ vs, RealPath 16 (((16 : Nat) : Int) * 100) chainGraph 1 3 vs) →
      entry 16 (FloydWarshall 16 chainGraph) 1 3 = ((16 : Nat) : Int) * 100) :=
  FloydWarshall_shortest_paths 16 100 chainGraph (by decide) (by decide)
    chainGraph_distanceMatrix 1 3 (by decide) (by decide)

/-- C3 fails on the code: the value of the check in `main` is true exactly when
a second run of `BlockedFloydWarshall` leaves the warm-up result unchanged; the
result of `FloydWarshall` is overwritten before the comparison. For
`chainGraph` the check is true although `FloydWarshall` and
`BlockedFloydWarshall` disagree on the matrix of that repetition. -/
theorem mainCheck_ignores_FloydWarshall :
    (∀ g0 : List Int, g0.length = nodos * nodos →
      (mainCheck nodos block_length block_count g0 = true ↔
        BlockedFloydWarshall block_length block_count g0 =
          BlockedFloydWarshall block_length block_count
            (BlockedFloydWarshall block_length block_count g0))) ∧
    mainCheck nodos block_length block_count chainGraph = true ∧
    FloydWarshall nodos (BlockedFloydWarshall block_length block_count chainGraph) ≠
      BlockedFloydWarshall block_length block_count
        (BlockedFloydWarshall block_length block_count chainGraph) := by
  have hlen : chainGraph.length = nodos * nodos := chainGraph_distanceMatrix.len
  have hB : BlockedFloydWarshall block_length block_count chainGraph = chainGraph :=
    Blocked_chainGraph 16
  refine ⟨?_, ?_, ?_⟩
  · intro g0 h
    rw [mainCheck_eq nodos block_length block_count g0 h, decide_eq_true_iff]
  · rewrite [mainCheck_eq nodos block_length block_count chainGraph hlen, hB, hB]
    exact decide_eq_true rfl
  · rewrite [hB]
    exact FloydWarshall_ne_Blocked_chainGraph

/-- C4 fails on the code: in every round each of the buffers `A`, `B`, `C`
holds the first `block_length * block_length` integers of the vector, cell
`(i, j)` being flat index `i * block_length + j`; no pair of block indices
makes that the window `(block_row * B + i) * N + (block_col * B + j)`, and for
the matrix whose entries are their own flat indices the buffer agrees with no
window of the matrix. -/
theorem tiles_are_not_windows :
    (∀ (g : List Int) (i j : Nat), i < block_length → j < block_length →
      block_length * block_length ≤ g.length →
      acc block_length (buffer block_length g) i j = cell g (i * block_length + j)) ∧
    (¬ ∃ block_row block_col : Nat, ∀ i j, i < block_length → j < block_length →
      linear block_length i j =
        (block_row * block_length + i) * nodos + (block_col * block_length + j)) ∧
    (¬ ∃ block_row block_col : Nat, ∀ i j, i < block_length → j < block_length →
      acc block_length (buffer block_length indexGraph) i j =
        entry nodos indexGraph (block_row * block_length + i) (block_col * block_length + j)) := by
  refine ⟨fun g i j hi hj hlen => acc_buffer block_length g i j hi hj hlen, ?_, ?_⟩
  · rintro ⟨br, bc, h⟩
    have h1 := h 1 0 (by decide) (by decide)
    unfold linear block_length nodos at h1
    omega
  · rintro ⟨br, bc, h⟩
    have h1 := h 1 0 (by decide) (by decide)
    rw [acc_buffer block_length indexGraph 1 0 (by decide) (by decide)
      (by unfold indexGraph; rw [length_matrixOf]; decide)] at h1
    unfold entry at h1
    rw [cell_indexGraph, cell_indexGraph] at h1
    unfold block_length nodos at h1
    split at h1 <;> split at h1 <;> omega

/-- C5: for every matrix with zero diagonal and all entries in `[0, inf]`
(the sentinel `inf` small enough that `2 * inf` fits in an `int`), the result
`d` of `FloydWarshall` satisfies `d[i][j] ≤ d[i][k] + d[k][j]` for all nodes
`i`, `j`, `k`. -/
theorem FloydWarshall_triangle (n : Nat) (inf : Int) (m : List Int)
    (hov : 2 * inf < 2147483648) (hlen : m.length = n * n)
    (_hdiag : ∀ i, i < n → entry n m i i = 0)
    (hbnd : ∀ i j, i < n → j < n → 0 ≤ entry n m i j ∧ entry n m i j ≤ inf)
    (i j k : Nat) (hi : i < n) (hj : j < n) (hk : k < n) :
    entry n (FloydWarshall n m) i j ≤
      entry n (FloydWarshall n m) i k + entry n (FloydWarshall n m) k j :=
  triangle_of_Inv n inf m _ (Inv.final n inf m hov hlen hbnd) i j k hi hj hk

/-- Witness for C5: `chainGraph` with the constants of the source, nodes 1, 3
and 2. -/
theorem FloydWarshall_triangle_witness :
    entry 16 (FloydWarshall 16 chainGraph) 1 3 ≤
      entry 16 (FloydWarshall 16 chainGraph) 1 2 + entry 16 (FloydWarshall 16 chainGraph) 2 3 :=
  FloydWarshall_triangle 16 1600 chainGraph (by decide) chainGraph_distanceMatrix.len
    chainGraph_distanceMatrix.diag chainGraph_bnd 1 3 2 (by decide) (by decide) (by decide)

/-- C6: no entry ever grows. The value at `(i, j)` after `FloydWarshall`, after
`BlockedFloydWarshall`, after one round of the latter, and after every single
relaxation step of either engine is at most the value before. -/
theorem relaxation_never_increases :
    (∀ n m i j, entry n (FloydWarshall n m) i j ≤ entry n m i j) ∧
    (∀ n bl bc m i j, entry n (BlockedFloydWarshall bl bc m) i j ≤ entry n m i j) ∧
    (∀ n g k i j a b, entry n (relax n g k i j) a b ≤ entry n g a b) ∧
    (∀ n bl g i j, entry n (blockedRound bl g) i j ≤ entry n g i j) ∧
    (∀ bl A B C k i j a b, acc bl (kernelStep bl A B C k i j) a b ≤ acc bl C a b) :=
  ⟨fun n m _ _ => cell_FloydWarshall_le n m _,
   fun _ bl bc m _ _ => cell_Blocked_le bl bc m _,
   fun n g k i j _ _ => cell_relax_le n g k i j _,
   fun _ bl g _ _ => cell_blockedRound_le bl g _,
   fun bl A B C k i j _ _ => cell_kernelStep_le bl A B C k i j _⟩

/-- Counterexample to C7 as stated: `overflowGraph` has 16 × 16 entries, zero
diagonal and no negative entry, yet after `FloydWarshall` its diagonal entry
`(1, 1)` is negative, the sum `grafo[1][0] + grafo[0][1] = 1 + 2147483647`
having left the range of `int`. -/
theorem diagonal_overflow_counterexample :
    overflowGraph.length = nodos * nodos ∧
    (∀ i, i < nodos → entry nodos overflowGraph i i = 0) ∧
    (∀ i j, i < nodos → j < nodos → 0 ≤ entry nodos overflowGraph i j) ∧
    entry nodos (FloydWarshall nodos overflowGraph) 1 1 ≤ -2147483648 := by
  refine ⟨?_, ?_, ?_, FloydWarshall_overflowGraph⟩
  · unfold overflowGraph; rw [length_matrixOf]
  · intro i hi
    unfold nodos at hi ⊢
    rw [entry_overflowGraph i i hi hi]; simp
  · intro i j hi hj
    exact (overflowGraph_range i j hi hj).1

/-- C7 as amended: for every matrix with zero diagonal whose entries lie in
`[0, B]` with `2 * B` within the range of `int` (so `B` up to `1073741823`),
every diagonal entry is still 0 after `FloydWarshall` and after
`BlockedFloydWarshall`. -/
theorem diagonal_stays_zero (n bl bc : Nat) (B : Int) (m : List Int)
    (hB : 2 * B < 2147483648) (hlen : m.length = n * n)
    (hdiag : ∀ i, i < n → entry n m i i = 0)
    (hbnd : ∀ i j, i < n → j < n → 0 ≤ entry n m i j ∧ entry n m i j ≤ B)
    (i : Nat) (hi : i < n) :
    entry n (FloydWarshall n m) i i = 0 ∧ entry n (BlockedFloydWarshall bl bc m) i i = 0 := by
  have hB0 : 0 ≤ B := by have := hbnd i i hi hi; omega
  have h1 := (Inv.final n B m hB hlen hbnd).bnd i i hi hi
  have h2 : entry n (FloydWarshall n m) i i ≤ entry n m i i := cell_FloydWarshall_le n m _
  have h3 := Blocked_bnd bl bc B hB m (cell_bnd_of_entries n B m hlen hB0 hbnd) (i * n + i)
  have h4 : entry n (BlockedFloydWarshall bl bc m) i i ≤ entry n m i i :=
    cell_Blocked_le bl bc m _
  have h5 := hdiag i hi
  unfold entry at *
  constructor <;> omega

/-- Witness for C7 as amended: `chainGraph` with the constants of the source,
node 5. -/
theorem diagonal_stays_zero_witness :
    entry 16 (FloydWarshall 16 chainGraph) 5 5 = 0 ∧
    entry 16 (BlockedFloydWarshall 4 16 chainGraph) 5 5 = 0 :=
  diagonal_stays_zero 16 4 16 1600 chainGraph (by decide) chainGraph_distanceMatrix.len
    chainGraph_distanceMatrix.diag chainGraph_bnd 5 (by decide)

/-- C8: for every matrix with zero diagonal and all entries in `[0, inf]`
(`2 * inf` fitting in an `int`), running `FloydWarshall` on its own result
changes nothing. -/
theorem FloydWarshall_idempotent (n : Nat) (inf : Int) (m : List Int)
    (hov : 2 * inf < 2147483648) (hlen : m.length = n * n)
    (_hdiag : ∀ i, i < n → entry n m i i = 0)
    (hbnd : ∀ i j, i < n → j < n → 0 ≤ entry n m i j ∧ entry n m i j ≤ inf) :
    FloydWarshall n (FloydWarshall n m) = FloydWarshall n m := by
  have h := Inv.final n inf m hov hlen hbnd
  exact FloydWarshall_noop n inf _ hov h.bnd
    (fun i j k hi hj hk => triangle_of_Inv n inf m _ h i j k hi hj hk)

/-- Witness for C8: the 4-node scenario. -/
theorem FloydWarshall_idempotent_witness :
    FloydWarshall 4 (FloydWarshall 4 scenario4) = FloydWarshall 4 scenario4 :=
  FloydWarshall_idempotent 4 400 scenario4 (by decide) (by decide) (by decide)
    (by intro i j hi hj; interval_cases i <;> interval_cases j <;> decide)

/-- C9: with 4 nodes and `infinite = 400`, `FloydWarshall` turns the scenario
matrix into `[[0,3,4,6],[4,0,1,3],[3,6,0,2],[1,4,5,0]]`; in particular
`dist[0][2] = 4`, `dist[0][3] = 6`, `dist[3][1] = 4` and `dist[3][2] = 5`. -/
theorem FloydWarshall_scenario4 :
    FloydWarshall 4 scenario4 = [0, 3, 4, 6, 4, 0, 1, 3, 3, 6, 0, 2, 1, 4, 5, 0] ∧
    entry 4 (FloydWarshall 4 scenario4) 0 2 = 4 ∧
    entry 4 (FloydWarshall 4 scenario4) 0 3 = 6 ∧
    entry 4 (FloydWarshall 4 scenario4) 3 1 = 4 ∧
    entry 4 (FloydWarshall 4 scenario4) 3 2 = 5 := by
  decide

/-- C10: with the constants of the source, the fully disconnected graph (zero
diagonal, every other entry `infinite`) is returned unchanged by
`FloydWarshall` and by `BlockedFloydWarshall`. -/
theorem disconnected_unchanged :
    FloydWarshall nodos (disconnected nodos infinite) = disconnected nodos infinite ∧
    BlockedFloydWarshall block_length block_count (disconnected nodos infinite) =
      disconnected nodos infinite := by
  constructor
  · exact FloydWarshall_disconnected nodos infinite (by decide) (by decide)
  · rw [infinite_eq]
    exact Blocked_noop_of_tile 4 16 1600 (disconnected 16 1600) (by decide) (by decide)
      (by unfold disconnected; rw [length_matrixOf]; decide) tile_disconnected

/-- C11: with the constants of the source, on the fully connected graph whose
every edge weighs 1 (zero diagonal, every other entry 1), `dist[i][j] = 1` for
all `i ≠ j` after `FloydWarshall` and after `BlockedFloydWarshall`. -/
theorem fullyConnected_distances (i j : Nat) (hi : i < nodos) (hj : j < nodos) (hij : i ≠ j) :
    entry nodos (FloydWarshall nodos (fullyConnected nodos 1)) i j = 1 ∧
    entry nodos (BlockedFloydWarshall block_length block_count (fullyConnected nodos 1)) i j
      = 1 := by
  have he : entry nodos (fullyConnected nodos 1) i j = 1 := by
    unfold fullyConnected
    rw [entry_matrixOf nodos _ i j hi hj, if_neg hij]
  have h1 : FloydWarshall nodos (fullyConnected nodos 1) = fullyConnected nodos 1 :=
    FloydWarshall_fullyConnected nodos 1 (by decide) (by decide)
  have h2 : BlockedFloydWarshall block_length block_count (fullyConnected nodos 1) =
      fullyConnected nodos 1 := Blocked_fullyConnected 16
  rewrite [h1, h2]
  exact ⟨he, he⟩

/-- Witness for C11: nodes 2 and 7. -/
theorem fullyConnected_distances_witness :
    entry nodos (FloydWarshall nodos (fullyConnected nodos 1)) 2 7 = 1 ∧
    entry nodos (BlockedFloydWarshall block_length block_count (fullyConnected nodos 1)) 2 7
      = 1 :=
  fullyConnected_distances 2 7 (by decide) (by decide) (by decide)

/-- C12: with the constants of the source and 32-bit `int`, for every matrix
whose entries all lie in `[0, infinite]`: after any number of relaxation steps
of `FloydWarshall` all entries are still in `[0, infinite]`; the sum computed at
each step is at most `2 * infinite = 3200 < 2^31 - 1` and its `int` value is the
mathematical sum; and the result of the engine is the result computed with
unbounded integers. -/
theorem sums_never_overflow (m : List Int) (hlen : m.length = nodos * nodos)
    (hbnd : ∀ c, c < nodos * nodos → 0 ≤ cell m c ∧ cell m c ≤ infinite) :
    (∀ t c, 0 ≤ cell (stateAfter nodos m t) c ∧ cell (stateAfter nodos m t) c ≤ infinite) ∧
    (∀ t k i j, (steps nodos)[t]? = some (k, i, j) →
      cell (stateAfter nodos m t) (i * nodos + k) + cell (stateAfter nodos m t) (k * nodos + j)
        ≤ 2 * infinite ∧
      add32 (cell (stateAfter nodos m t) (i * nodos + k))
          (cell (stateAfter nodos m t) (k * nodos + j)) =
        cell (stateAfter nodos m t) (i * nodos + k) +
          cell (stateAfter nodos m t) (k * nodos + j)) ∧
    2 * infinite = 3200 ∧ (3200 : Int) < 2 ^ 31 - 1 ∧
    stateAfter nodos m (steps nodos).length = FloydWarshall nodos m ∧
    FloydWarshall nodos m = FloydWarshallUnbounded nodos m := by
  have hB : 2 * infinite < 2147483648 := by decide
  have hall : ∀ c, 0 ≤ cell m c ∧ cell m c ≤ infinite :=
    cell_bnd_of_cells nodos infinite m hlen (by decide) hbnd
  have hst := stateAfter_bnd nodos infinite hB m hall
  refine ⟨hst, ?_, by decide, by decide, stateAfter_length nodos m,
    FloydWarshall_eq_unbounded nodos infinite hB m hall⟩
  intro t k i j _
  have h1 := hst t (i * nodos + k)
  have h2 := hst t (k * nodos + j)
  exact ⟨by omega, add32_eq _ _ infinite hB h1.1 h1.2 h2.1 h2.2⟩

/-- Witness for C12: `chainGraph`. -/
theorem sums_never_overflow_witness :
    (∀ t c, 0 ≤ cell (stateAfter nodos chainGraph t) c ∧
      cell (stateAfter nodos chainGraph t) c ≤ infinite) ∧
    (∀ t k i j, (steps nodos)[t]? = some (k, i, j) →
      cell (stateAfter nodos chainGraph t) (i * nodos + k) +
          cell (stateAfter nodos chainGraph t) (k * nodos + j) ≤ 2 * infinite ∧
      add32 (cell (stateAfter nodos chainGraph t) (i * nodos + k))
          (cell (stateAfter nodos chainGraph t) (k * nodos + j)) =
        cell (stateAfter nodos chainGraph t) (i * nodos + k) +
          cell (stateAfter nodos chainGraph t) (k * nodos + j)) ∧
    2 * infinite = 3200 ∧ (3200 : Int) < 2 ^ 31 - 1 ∧
    stateAfter nodos chainGraph (steps nodos).length = FloydWarshall nodos chainGraph ∧
    FloydWarshall nodos chainGraph = FloydWarshallUnbounded nodos chainGraph :=
  sums_never_overflow chainGraph chainGraph_distanceMatrix.len
    (fun c _ => by rw [infinite_eq]; exact chainGraph_cells c)

/-- C13: in a round, the work-item with global id `(i, j)` writes no cell of the
destination buffer but cell `(i, j)`: each of its steps, and its whole loop,
leave every other cell as it was. Work-items with different global ids have
different cells, so no step of one work-item touches the cell of another, and
the kernel leaves in cell `(i, j)` what the loop of work-item `(i, j)` alone
computes. -/
theorem workItems_write_own_cell (bl : Nat) (A B C : List Int) (i j i' j' : Nat)
    (hi : i < bl) (hj : j < bl) (_hi' : i' < bl) (hj' : j' < bl)
    (hne : (i, j) ≠ (i', j')) (hC : bl * bl ≤ C.length) :
    (∀ k c, c ≠ linear bl i j → cell (kernelStep bl A B C k i j) c = cell C c) ∧
    (∀ c, c ≠ linear bl i j → cell (workItem bl A B C i j) c = cell C c) ∧
    linear bl i j ≠ linear bl i' j' ∧
    (∀ k, cell (kernelStep bl A B C k i j) (linear bl i' j') = cell C (linear bl i' j')) ∧
    cell (KernelBlockedFloydWarshall bl A B C) (linear bl i j) =
      cell (workItem bl A B C i j) (linear bl i j) := by
  have hlin : linear bl i j ≠ linear bl i' j' := by
    intro e
    have := idx_inj bl i j i' j' hj hj' e
    exact hne (by rw [this.1, this.2])
  refine ⟨fun k c hc => cell_kernelStep_other bl A B C k i j c hc,
    fun c hc => cell_workItem_other bl A B C i j c hc, hlin,
    fun k => cell_kernelStep_other bl A B C k i j _ (Ne.symm hlin), ?_⟩
  have h1 := cell_Kernel_linear bl A B C hC i j hi hj
  have h2 := cell_workItem bl A B C i j (by have := linear_lt bl i j hi hj; omega)
    (linear bl i j)
  rw [if_pos rfl] at h2
  unfold acc at h1
  rw [h1, h2]
  rfl

/-- Witness for C13: blocks of 4, the three buffers holding the scenario
matrix, work-items `(0, 2)` and `(1, 2)`. -/
theorem workItems_write_own_cell_witness :
    (∀ k c, c ≠ linear 4 0 2 →
      cell (kernelStep 4 scenario4 scenario4 scenario4 k 0 2) c = cell scenario4 c) ∧
    (∀ c, c ≠ linear 4 0 2 →
      cell (workItem 4 scenario4 scenario4 scenario4 0 2) c = cell scenario4 c) ∧
    linear 4 0 2 ≠ linear 4 1 2 ∧
    (∀ k, cell (kernelStep 4 scenario4 scenario4 scenario4 k 0 2) (linear 4 1 2) =
      cell scenario4 (linear 4 1 2)) ∧
    cell (KernelBlockedFloydWarshall 4 scenario4 scenario4 scenario4) (linear 4 0 2) =
      cell (workItem 4 scenario4 scenario4 scenario4 0 2) (linear 4 0 2) :=
  workItems_write_own_cell 4 scenario4 scenario4 scenario4 0 2 1 2 (by decide) (by decide)
    (by decide) (by decide) (by decide) (by decide)

/-- C14: for every matrix with zero diagonal, non-negative entries and no two
entries whose sum exceeds the largest `int`, and every pivot `k < n`: once the
outer-loop iteration of `FloydWarshall` for pivot `k` has completed, entry
`(i, j)` is the minimum weight of the paths from `i` to `j` in `m` whose
intermediate nodes all lie in `{0..k}`: it is at most the weight of every such
walk, and it is the weight of one that repeats no node. The state after the
last pivot is the result of `FloydWarshall`. -/
theorem afterPivot_shortest (n : Nat) (m : List Int) (hlen : m.length = n * n)
    (hdiag : ∀ i, i < n → entry n m i i = 0)
    (hnn : ∀ i j, i < n → j < n → 0 ≤ entry n m i j)
    (hsum : ∀ a b c d, a < n → b < n → c < n → d < n →
      entry n m a b + entry n m c d ≤ 2147483647)
    (k : Nat) (hk : k < n) (i j : Nat) (hi : i < n) (hj : j < n) :
    (∀ p, (∀ v ∈ p, v ≤ k) → entry n (afterPivot n m k) i j ≤ walkWeight n m i p j) ∧
    (∃ q, (∀ v ∈ q, v ≤ k) ∧ q.Nodup ∧ i ∉ q ∧ j ∉ q ∧
      entry n (afterPivot n m k) i j = walkWeight n m i q j) ∧
    afterPivot n m (n - 1) = FloydWarshall n m := by
  have hbnd : ∀ a b, a < n → b < n → 0 ≤ entry n m a b ∧ entry n m a b ≤ 1073741823 := by
    intro a b ha hb
    have := hsum a b a b ha hb ha hb
    exact ⟨hnn a b ha hb, by omega⟩
  obtain ⟨hinv, hwithin⟩ := afterPivot_inv n 1073741823 m (by decide) hlen hbnd k hk
  have hl : level (k + 1) 0 0 i j = k + 1 := by unfold level; simp
  have hlb : ∀ p, (∀ v ∈ p, v ≤ k) → entry n (afterPivot n m k) i j ≤ walkWeight n m i p j := by
    intro p hp
    apply hinv.lb i j hi hj p
    rw [hl]
    intro v hv
    exact Nat.lt_succ_of_le (hp v hv)
  have hlast : afterPivot n m (n - 1) = FloydWarshall n m := by
    unfold afterPivot FloydWarshall
    rw [Nat.sub_add_cancel (by omega : 1 ≤ n)]
  refine ⟨hlb, ?_, hlast⟩
  by_cases hij : i = j
  · subst hij
    refine ⟨[], by simp, List.nodup_nil, by simp, by simp, ?_⟩
    have h1 := (hinv.bnd i i hi hi).1
    have h2 : entry n (afterPivot n m k) i i ≤ entry n m i i := cell_afterPivot_le n m k _
    have h3 := hdiag i hi
    simp only [walkWeight]
    omega
  · obtain ⟨p, hp, e⟩ := hwithin i j hi hj
    have hpk : ∀ v ∈ p, v ≤ k := fun v hv => Nat.le_of_lt_succ (hp v hv)
    have hpn : ∀ v ∈ p, v < n := fun v hv => by have := hpk v hv; omega
    obtain ⟨q, _, hqw, hqle, hqnd, hqj⟩ :=
      shorten n m hnn _ j hj p i hi hij hpn (walkAll_of_bound k j p i hpk)
    have hqk : ∀ v ∈ q, v ≤ k := by
      intro v hv
      rcases bound_of_walkAll k j q i hqw v hv with h | h
      · exact h
      · exact absurd (h ▸ hv) hqj
    have h1 := hlb q hqk
    exact ⟨q, hqk, (List.nodup_cons.1 hqnd).2, (List.nodup_cons.1 hqnd).1, hqj, by omega⟩

/-- Witness for C14: `chainGraph` with the constants of the source, pivot 2,
from node 1 to node 3. -/
theorem afterPivot_shortest_witness :
    (∀ p, (∀ v ∈ p, v ≤ 2) →
      entry 16 (afterPivot 16 chainGraph 2) 1 3 ≤ walkWeight 16 chainGraph 1 p 3) ∧
    (∃ q, (∀ v ∈ q, v ≤ 2) ∧ q.Nodup ∧ 1 ∉ q ∧ 3 ∉ q ∧
      entry 16 (afterPivot 16 chainGraph 2) 1 3 = walkWeight 16 chainGraph 1 q 3) ∧
    afterPivot 16 chainGraph (16 - 1) = FloydWarshall 16 chainGraph :=
  afterPivot_shortest 16 chainGraph chainGraph_distanceMatrix.len
    chainGraph_distanceMatrix.diag (fun i j hi hj => (chainGraph_bnd i j hi hj).1)
    (fun a b c d ha hb hc hd => by
      have h1 := (chainGraph_bnd a b ha hb).2
      have h2 := (chainGraph_bnd c d hc hd).2
      omega)
    2 (by decide) 1 3 (by decide) (by decide)

/-- C15: for fixed buffers `A` and `B` and any initial value of `C[i][j]`, the
loop of the work-item with global id `(i, j)` over `k = 0 .. bl - 1` ends with
`C[i][j]` the least of its initial value and the sums `A[i][k] + B[k][j]`, the
sums being the `int` sums the kernel computes; they are the mathematical sums
whenever those fit in an `int`. -/
theorem workItem_takes_minimum (bl : Nat) (A B C : List Int) (i j : Nat)
    (hC : linear bl i j < C.length) :
    (acc bl (workItem bl A B C i j) i j ≤ acc bl C i j ∧
      (∀ k, k < bl →
        acc bl (workItem bl A B C i j) i j ≤ add32 (acc bl A i k) (acc bl B k j)) ∧
      (acc bl (workItem bl A B C i j) i j = acc bl C i j ∨
        ∃ k, k < bl ∧
          acc bl (workItem bl A B C i j) i j = add32 (acc bl A i k) (acc bl B k j))) ∧
    ((∀ k, k < bl → -2147483648 ≤ acc bl A i k + acc bl B k j ∧
        acc bl A i k + acc bl B k j ≤ 2147483647) →
      (∀ k, k < bl → acc bl (workItem bl A B C i j) i j ≤ acc bl A i k + acc bl B k j) ∧
      (acc bl (workItem bl A B C i j) i j = acc bl C i j ∨
        ∃ k, k < bl ∧ acc bl (workItem bl A B C i j) i j = acc bl A i k + acc bl B k j)) := by
  have h := cell_workItem bl A B C i j hC (linear bl i j)
  rw [if_pos rfl] at h
  have e : acc bl (workItem bl A B C i j) i j =
      relaxThrough (fun k => add32 (acc bl A i k) (acc bl B k j)) bl (acc bl C i j) := h
  obtain ⟨s1, s2, s3⟩ :=
    relaxThrough_spec (fun k => add32 (acc bl A i k) (acc bl B k j)) bl (acc bl C i j)
  rw [← e] at s1 s2 s3
  refine ⟨⟨s1, s2, s3⟩, ?_⟩
  intro hfit
  have hadd : ∀ k, k < bl → add32 (acc bl A i k) (acc bl B k j) =
      acc bl A i k + acc bl B k j := by
    intro k hk
    have := hfit k hk
    unfold add32
    exact wrap32_eq _ this.1 (by omega)
  refine ⟨fun k hk => hadd k hk ▸ s2 k hk, ?_⟩
  rcases s3 with e3 | ⟨k, hk, e3⟩
  · exact Or.inl e3
  · exact Or.inr ⟨k, hk, hadd k hk ▸ e3⟩

/-- Witness for C15: blocks of 4, the three buffers holding the scenario
matrix, work-item `(0, 2)`. -/
theorem workItem_takes_minimum_witness :
    (acc 4 (workItem 4 scenario4 scenario4 scenario4 0 2) 0 2 ≤ acc 4 scenario4 0 2 ∧
      (∀ k, k < 4 → acc 4 (workItem 4 scenario4 scenario4 scenario4 0 2) 0 2 ≤
        add32 (acc 4 scenario4 0 k) (acc 4 scenario4 k 2)) ∧
      (acc 4 (workItem 4 scenario4 scenario4 scenario4 0 2) 0 2 = acc 4 scenario4 0 2 ∨
        ∃ k, k < 4 ∧ acc 4 (workItem 4 scenario4 scenario4 scenario4 0 2) 0 2 =
          add32 (acc 4 scenario4 0 k) (acc 4 scenario4 k 2))) ∧
    ((∀ k, k < 4 → -2147483648 ≤ acc 4 scenario4 0 k + acc 4 scenario4 k 2 ∧
        acc 4 scenario4 0 k + acc 4 scenario4 k 2 ≤ 2147483647) →
      (∀ k, k < 4 → acc 4 (workItem 4 scenario4 scenario4 scenario4 0 2) 0 2 ≤
        acc 4 scenario4 0 k + acc 4 scenario4 k 2) ∧
      (acc 4 (workItem 4 scenario4 scenario4 scenario4 0 2) 0 2 = acc 4 scenario4 0 2 ∨
        ∃ k, k < 4 ∧ acc 4 (workItem 4 scenario4 scenario4 scenario4 0 2) 0 2 =
          acc 4 scenario4 0 k + acc 4 scenario4 k 2)) :=
  workItem_takes_minimum 4 scenario4 scenario4 scenario4 0 2 (by decide)

/-- C16: for every matrix of `nodos * nodos = 256` entries,
`BlockedFloydWarshall` leaves every entry at flat index at least
`block_length * block_length = 16` as it was: after the call, after any number
of its rounds, and across each single round; so every row but row 0 is
unchanged, and the vector keeps its length. -/
theorem tiled_engine_frame (m : List Int) (_hlen : m.length = nodos * nodos) (c : Nat)
    (hc : block_length * block_length ≤ c) :
    cell (BlockedFloydWarshall block_length block_count m) c = cell m c ∧
    (∀ r, r ≤ block_count → cell (BlockedFloydWarshall block_length r m) c = cell m c) ∧
    (∀ g : List Int, cell (blockedRound block_length g) c = cell g c) ∧
    (∀ i j, 1 ≤ i → entry nodos (BlockedFloydWarshall block_length block_count m) i j =
      entry nodos m i j) ∧
    (BlockedFloydWarshall block_length block_count m).length = m.length :=
  ⟨cell_Blocked_frame block_length block_count m c hc,
   fun r _ => cell_Blocked_frame block_length r m c hc,
   fun g => cell_blockedRound_frame block_length g c hc,
   fun i j hi => Blocked_frame_entry 16 m i j hi,
   length_Blocked block_length block_count m⟩

/-- Witness for C16: `chainGraph`, flat index 19, that is entry `(1, 3)`. -/
theorem tiled_engine_frame_witness :
    cell (BlockedFloydWarshall block_length block_count chainGraph) 19 = cell chainGraph 19 ∧
    (∀ r, r ≤ block_count →
      cell (BlockedFloydWarshall block_length r chainGraph) 19 = cell chainGraph 19) ∧
    (∀ g : List Int, cell (blockedRound block_length g) 19 = cell g 19) ∧
    (∀ i j, 1 ≤ i →
      entry nodos (BlockedFloydWarshall block_length block_count chainGraph) i j =
        entry nodos chainGraph i j) ∧
    (BlockedFloydWarshall block_length block_count chainGraph).length = chainGraph.length :=
  tiled_engine_frame chainGraph chainGraph_distanceMatrix.len 19 (by decide)

/-- C17: with the constants of the source, for every matrix with entries in
`[0, infinite]`, running `BlockedFloydWarshall` on its own result changes
nothing; so the check of `main`, which compares the warm-up result with a
second run on a copy of it, is true for every such initial graph. -/
theorem tiled_engine_idempotent (m : List Int) (hlen : m.length = nodos * nodos)
    (hbnd : ∀ c, c < nodos * nodos → 0 ≤ cell m c ∧ cell m c ≤ infinite) :
    BlockedFloydWarshall block_length block_count
        (BlockedFloydWarshall block_length block_count m) =
      BlockedFloydWarshall block_length block_count m ∧
    mainCheck nodos block_length block_count m = true := by
  have hall : ∀ c, 0 ≤ cell m c ∧ cell m c ≤ infinite :=
    cell_bnd_of_cells nodos infinite m hlen (by decide) hbnd
  have h := Blocked_fixed_after_rounds block_length block_count infinite m (by decide)
    (by rw [hlen]; decide) hall (by decide)
  refine ⟨h, ?_⟩
  rw [mainCheck_eq nodos block_length block_count m hlen, decide_eq_true_iff]
  exact h.symm

/-- Witness for C17: `chainGraph`. -/
theorem tiled_engine_idempotent_witness :
    BlockedFloydWarshall block_length block_count
        (BlockedFloydWarshall block_length block_count chainGraph) =
      BlockedFloydWarshall block_length block_count chainGraph ∧
    mainCheck nodos block_length block_count chainGraph = true :=
  tiled_engine_idempotent chainGraph chainGraph_distanceMatrix.len
    (fun c _ => by rw [infinite_eq]; exact chainGraph_cells c)

end Oneapi
